import Mathlib

/-!
# The Win32 POSIX shim of the LevelDB Windows port (`win32_posix.cc`)

A shallow embedding of the shim functions of
`cppForSwig/leveldb_windows_port/win32_posix/win32_posix.cc` and the properties
established about them.

Conventions of the embedding.

* A C string is the list of its characters before the terminating NUL.
* Machine integers are `Nat` / `Int` values; conversions between widths are
  written out (`toDWORD`, `toInt32`).
* The Windows primitives the shim calls (`ReadFile`, `SetFilePointer`,
  `RemoveDirectory`, ...) are not part of the repository.  They are given a small
  executable model, kept under the name of the primitive.
-/

namespace Win32Posix

/-! ## Machine integers -/

/-- Conversion of an integer to a 32-bit unsigned value (`DWORD`, `unsigned int`). -/
def toDWORD (z : Int) : Nat := (z % 2 ^ 32).toNat

/-- Conversion of an unsigned value to a 32-bit signed `int` (two's complement). -/
def toInt32 (n : Nat) : Int :=
  if n % 2 ^ 32 < 2 ^ 31 then ((n % 2 ^ 32 : Nat) : Int) else ((n % 2 ^ 32 : Nat) : Int) - 2 ^ 32

/-! ## Path translator -/

/-- The loop `for(i=0; i<l; i++) if(win32_path[i]=='\\') win32_path[i]='/';` of
`posix_path_to_win32`; the first argument is the number of iterations left, `l - i`. -/
def slashLoop : Nat → Nat → List Char → List Char
  | 0, _, win32_path => win32_path
  | k + 1, i, win32_path =>
    slashLoop k (i + 1) (if win32_path[i]? = some '\\' then win32_path.set i '/' else win32_path)

/-- Embedding of `posix_path_to_win32`: a `.` is put in front of a path whose first character
is a backslash or a slash, then every backslash among the first `l` characters becomes a
slash. -/
def posix_path_to_win32 (posix_path : List Char) : List Char :=
  let l := posix_path.length
  if posix_path.head? = some '\\' ∨ posix_path.head? = some '/' then
    slashLoop (l + 1) 0 ('.' :: posix_path)
  else
    slashLoop l 0 posix_path

/-- The character-wise effect of the separator loop of `posix_path_to_win32`. -/
def toSlash (c : Char) : Char := if c = '\\' then '/' else c

/-- The loop `while(i<l) { if(win32_path[i]=='/') win32_path[i++] = '\\'; i++; }` of
`posix_path_to_win32_full`.  The second argument bounds the number of iterations; `l`
iterations always suffice because `i` grows at every turn. -/
def fullLoop (l : Nat) : Nat → Nat → List Char → List Char
  | 0, _, win32_path => win32_path
  | fuel + 1, i, win32_path =>
    if i < l then
      if win32_path[i]? = some '/' then fullLoop l fuel (i + 1 + 1) (win32_path.set i '\\')
      else fullLoop l fuel (i + 1) win32_path
    else win32_path

/-- Embedding of `posix_path_to_win32_full`: `..` is put in front of a path that starts
with a slash, then the buffer is scanned up to its terminator. -/
def posix_path_to_win32_full (posix_path : List Char) : List Char :=
  let l := posix_path.length + 1
  if posix_path.head? = some '/' then
    fullLoop (l + 2) (l + 2) 0 ('.' :: '.' :: posix_path)
  else
    fullLoop l l 0 posix_path

/-! ## Descriptor I/O: the host -/

/-- An open file object of the host: its length, its bytes, the file pointer of the handle
and whether the handle carries `GENERIC_WRITE` access. -/
structure HostFile where
  size : Nat
  byteAt : Nat → Nat
  pos : Nat
  canWrite : Bool

/-- The host operations the descriptor shim may perform on a handle. -/
inductive HostCall where
  | ReadFile (h : Int)
  | SetFilePointer (h : Int)
  | SetEndOfFile (h : Int)
  | FlushFileBuffers (h : Int)
deriving DecidableEq, Repr

/-- State of the host seen by the descriptor shim.  `osfhandle` is the descriptor table of
the C runtime, `file` the file object behind each handle, `log` the host operations performed
so far.  `overlappedMovesPointer` records the one behaviour the source leaves open ("Unsure
if this is what ReadFile does with these OVERLAPPED settings"): whether a read through an
`OVERLAPPED` record moves the file pointer of the handle. -/
structure Host where
  osfhandle : Int → Int
  file : Int → Option HostFile
  overlappedMovesPointer : Bool
  errno : Int
  log : List HostCall

/-- The value `INVALID_HANDLE_VALUE`, that is `(HANDLE)-1`. -/
def INVALID_HANDLE_VALUE : Int := -1

/-- The value `INVALID_SET_FILE_POINTER`, written `0xFFFFFFFF` in the source. -/
def INVALID_SET_FILE_POINTER : Nat := 0xFFFFFFFF

/-- The C error number `EBADF`. -/
def EBADF : Int := 9

/-- Host lookup `_get_osfhandle`. -/
def _get_osfhandle (H : Host) (fd : Int) : Int := H.osfhandle fd

/-- The bytes of a file from offset `off`, at most `n` of them. -/
def HostFile.bytesFrom (f : HostFile) (off n : Nat) : List Nat :=
  (List.range (min n (f.size - off))).map (fun i => f.byteAt (off + i))

/-- Host primitive `ReadFile(hF, buff, size, &rt, &ol)` with an `OVERLAPPED` record whose
offset fields are `olOffset` and `olOffsetHigh`.  The transfer count is set to zero before
anything else, the read starts at the offset of the record, and the result is the new host
state, the transfer count and the bytes stored in the buffer.  The `BOOL` result is left out:
the shim ignores it. -/
def ReadFile (H : Host) (hF : Int) (size olOffset olOffsetHigh : Nat) : Host × Nat × List Nat :=
  let H1 : Host := { H with log := H.log ++ [HostCall.ReadFile hF] }
  match H.file hF with
  | none => (H1, 0, [])
  | some f =>
    let off := olOffset + 2 ^ 32 * olOffsetHigh
    let count := min size (f.size - off)
    let f1 : HostFile := if H.overlappedMovesPointer then { f with pos := off + count } else f
    ({ H1 with file := Function.update H1.file hF (some f1) }, count, f.bytesFrom off size)

/-- Host sequential read (`ReadFile` without an `OVERLAPPED` record, as `_read` performs it):
reads at the file pointer and advances it. -/
def sequentialRead (H : Host) (hF : Int) (size : Nat) : Host × Nat × List Nat :=
  match H.file hF with
  | none => (H, 0, [])
  | some f =>
    let count := min size (f.size - f.pos)
    ({ H with file := Function.update H.file hF (some { f with pos := f.pos + count }) },
      count, f.bytesFrom f.pos size)

/-- C runtime `_tell(fd)`: the file pointer as a `long`, or `-1` for a bad descriptor or a
position that does not fit a `long`. -/
def _tell (H : Host) (fd : Int) : Int :=
  match H.file (H.osfhandle fd) with
  | none => -1
  | some f => if f.pos < 2 ^ 31 then (f.pos : Int) else -1

/-- Host primitive `SetFilePointer(hF, lDistanceToMove, 0, FILE_BEGIN)`: with no high part the
distance is a signed 32-bit value; a negative one, or an invalid handle, fails with
`INVALID_SET_FILE_POINTER` and moves nothing. -/
def SetFilePointer (H : Host) (hF : Int) (lDistanceToMove : Int) : Host × Nat :=
  let H1 : Host := { H with log := H.log ++ [HostCall.SetFilePointer hF] }
  match H.file hF with
  | none => (H1, INVALID_SET_FILE_POINTER)
  | some f =>
    if lDistanceToMove < 0 then (H1, INVALID_SET_FILE_POINTER)
    else
      ({ H1 with file := Function.update H1.file hF (some { f with pos := lDistanceToMove.toNat }) },
        toDWORD lDistanceToMove)

/-- Host primitive `SetEndOfFile(hF)`: moves the end of the file to the file pointer; it
needs write access to the file.  Bytes gained by an extension read as zero. -/
def SetEndOfFile (H : Host) (hF : Int) : Host × Bool :=
  let H1 : Host := { H with log := H.log ++ [HostCall.SetEndOfFile hF] }
  match H.file hF with
  | none => (H1, false)
  | some f =>
    if f.canWrite then
      let f1 : HostFile :=
        { f with size := f.pos, byteAt := fun i => if i < f.size then f.byteAt i else 0 }
      ({ H1 with file := Function.update H1.file hF (some f1) }, true)
    else (H1, false)

/-- Host primitive `FlushFileBuffers(hF)`: succeeds on a valid handle with write access. -/
def FlushFileBuffers (H : Host) (hF : Int) : Host × Bool :=
  let H1 : Host := { H with log := H.log ++ [HostCall.FlushFileBuffers hF] }
  match H.file hF with
  | none => (H1, false)
  | some f => (H1, f.canWrite)

/-! ## Descriptor I/O: the shim -/

/-- Result of `pread_win32`: the host afterwards, the returned `int` and the bytes stored at
the start of `buff`. -/
structure PreadResult where
  host : Host
  ret : Int
  buff : List Nat

/-- Embedding of `pread_win32(fd, buff, size, offset)`.  `rt` starts as `(unsigned)-1`; when
the handle is not null the read goes through an `OVERLAPPED` record that is zeroed except
for `Offset = offset`; the result is `(int)rt`. -/
def pread_win32 (H : Host) (fd : Int) (size : Nat) (offset : Int) : PreadResult :=
  let rt : Nat := toDWORD (-1)
  let hF := _get_osfhandle H fd
  if hF ≠ 0 then
    let r := ReadFile H hF size (toDWORD offset) 0
    { host := r.1, ret := toInt32 r.2.1, buff := r.2.2 }
  else
    { host := H, ret := toInt32 rt, buff := [] }

/-- Embedding of `ftruncate_win32(fd, length)`. -/
def ftruncate_win32 (H : Host) (fd : Int) (length : Int) : Host × Int :=
  let hF := _get_osfhandle H fd
  if hF ≠ 0 then
    let cpos : Nat := toDWORD (_tell H fd)
    if cpos ≠ 0xFFFFFFFF then
      let r1 := SetFilePointer H hF length
      if r1.2 ≠ 0xFFFFFFFF then
        let r2 := SetEndOfFile r1.1 hF
        if r2.2 then
          let r3 := SetFilePointer r2.1 hF (toInt32 cpos)
          (r3.1, 0)
        else (r2.1, -1)
      else (r1.1, -1)
    else (H, -1)
  else (H, -1)

/-- Embedding of `fsync_win32(fd)`. -/
def fsync_win32 (H : Host) (fd : Int) : Host × Int :=
  let fHandle := _get_osfhandle H fd
  let r := FlushFileBuffers H fHandle
  if r.2 then (r.1, 0)
  else ({ r.1 with errno := EBADF }, -1)

/-! ## Sleep -/

/-- What a call of `usleep_win32` did: either it polled the performance counter, starting
from the reading `start`, until a reading `last` reached the target `wait`, or it called
`Sleep(ms)`. -/
inductive SleepTrace where
  | busyPoll (start wait last : Nat)
  | coarse (ms : Nat)
deriving DecidableEq, Repr

/-- The loop `while(wait>tick) QueryPerformanceCounter(&tick);`.  `counter k` is the reading
returned by the `k`-th query; the first argument bounds the number of queries, and the result
is `none` when the bound is reached with the loop still running. -/
def pollLoop (counter : Nat → Nat) (wait : Nat) : Nat → Nat → Nat → Option Nat
  | 0, _, tick => if wait > tick then none else some tick
  | fuel + 1, k, tick =>
    if wait > tick then pollLoop counter wait fuel (k + 1) (counter k) else some tick

/-- Embedding of `usleep_win32(in)`, with `in` a 64-bit unsigned value.  `fq` is the result
of `QueryPerformanceFrequency`, `counter` the successive readings of
`QueryPerformanceCounter`, both 64-bit values; arithmetic on `unsigned long long` wraps
at `2^64`, and `(unsigned int)in/1000` converts before it divides. -/
def usleep_win32 (fq : Nat) (counter : Nat → Nat) (fuel : Nat) (inp : Nat) : Option SleepTrace :=
  if inp < 10000 then
    let tick := counter 0
    let wait := ((fq * inp) % 2 ^ 64 / 1000000 + tick) % 2 ^ 64
    (pollLoop counter wait fuel 1 tick).map (fun last => SleepTrace.busyPoll tick wait last)
  else
    let wait := (inp % 2 ^ 32) / 1000
    some (SleepTrace.coarse wait)

/-! ## Specification vocabulary and sample hosts for the descriptor shim -/

/-- The positioned-read contract as the specification words it, for the descriptor `fd` of
host `H`: the call returns the number of bytes available at `offset` (at most `size`), the
buffer holds the bytes of the file from `offset`, the file pointer of the descriptor is what
it was, and a following sequential read of any length returns the bytes from that pointer. -/
def PreadContract (H : Host) (fd : Int) (size : Nat) (offset : Int) : Prop :=
  ∀ f, H.file (H.osfhandle fd) = some f →
    (pread_win32 H fd size offset).ret = ((min size (f.size - offset.toNat) : Nat) : Int)
    ∧ (pread_win32 H fd size offset).buff = f.bytesFrom offset.toNat size
    ∧ ((pread_win32 H fd size offset).host.file (H.osfhandle fd)).map HostFile.pos = some f.pos
    ∧ ∀ m, (sequentialRead (pread_win32 H fd size offset).host (H.osfhandle fd) m).2.2
        = f.bytesFrom f.pos m

/-- A host with one open descriptor, `3`, on a file of `2^31` zero bytes; its `OVERLAPPED`
reads leave the file pointer alone. -/
def bigFileHost : Host where
  osfhandle := fun fd => if fd = 3 then 100 else INVALID_HANDLE_VALUE
  file := fun h => if h = 100 then
    some { size := 2 ^ 31, byteAt := fun _ => 0, pos := 0, canWrite := true } else none
  overlappedMovesPointer := false
  errno := 0
  log := []

/-- A host with one open descriptor, `3`, on an eight-byte file opened without write access,
the file pointer standing at `5`. -/
def readOnlyHost : Host where
  osfhandle := fun fd => if fd = 3 then 100 else INVALID_HANDLE_VALUE
  file := fun h => if h = 100 then
    some { size := 8, byteAt := fun i => i + 1, pos := 5, canWrite := false } else none
  overlappedMovesPointer := false
  errno := 0
  log := []

/-- The host `readOnlyHost`, except that its `OVERLAPPED` reads move the file pointer. -/
def movingHost : Host := { readOnlyHost with overlappedMovesPointer := true }

/-- A host with no open descriptor at all: every lookup yields `INVALID_HANDLE_VALUE`. -/
def noDescriptorHost : Host where
  osfhandle := fun _ => INVALID_HANDLE_VALUE
  file := fun _ => none
  overlappedMovesPointer := false
  errno := 0
  log := []

/-- A performance counter that advances by a thousand ticks between two queries. -/
def steadyCounter (k : Nat) : Nat := 1000 * k

/-! ## Directory manager: the host file system -/

/-- An entry of the host file system: the path under which it is known (segments joined by
`/`, no trailing separator) and its attribute word, as `GetFileAttributes` reports it. -/
structure Entry where
  path : List Char
  attrs : Nat
deriving DecidableEq, Repr

/-- The attribute bit `FILE_ATTRIBUTE_DIRECTORY`. -/
def FILE_ATTRIBUTE_DIRECTORY : Nat := 0x10

/-- The attribute bit `FILE_ATTRIBUTE_ARCHIVE`. -/
def FILE_ATTRIBUTE_ARCHIVE : Nat := 0x20

/-- The failure value `INVALID_FILE_ATTRIBUTES` of `GetFileAttributes`. -/
def INVALID_FILE_ATTRIBUTES : Nat := 0xFFFFFFFF

/-- The host error `ERROR_PATH_NOT_FOUND`. -/
def ERROR_PATH_NOT_FOUND : Nat := 3

/-- The host error `ERROR_DIR_NOT_EMPTY`. -/
def ERROR_DIR_NOT_EMPTY : Nat := 145

/-- The host error `ERROR_DIRECTORY`: the name is not that of a directory. -/
def ERROR_DIRECTORY : Nat := 267

/-- The C error number `ENOENT`. -/
def ENOENT : Int := 2

/-- The C error number `EACCES`. -/
def EACCES : Int := 13

/-- The C error number `EEXIST`. -/
def EEXIST : Int := 17

/-- The host's own view of an entry: it is a directory when its attribute word includes the
directory bit. -/
def Entry.isDir (e : Entry) : Bool := e.attrs &&& FILE_ATTRIBUTE_DIRECTORY != 0

/-- State of the host seen by the directory manager: the entries of the file system, the C
runtime's `errno`, and the journal of the paths deleted so far, oldest first. -/
structure Disk where
  entries : List Entry
  errno : Int
  journal : List (List Char)

/-- The host names a directory with or without one trailing separator. -/
def canon (p : List Char) : List Char :=
  if p.getLast? = some '/' then p.dropLast else p

/-- Host lookup of the entry a path names. -/
def Disk.find (d : Disk) (p : List Char) : Option Entry :=
  d.entries.find? (fun e => decide (e.path = canon p))

/-- The name of `path` inside directory `dir` when `path` is an immediate entry of `dir`. -/
def childName (dir path : List Char) : Option (List Char) :=
  if (dir ++ ['/']).isPrefixOf path then
    if path.drop (dir.length + 1) ≠ [] ∧ '/' ∉ path.drop (dir.length + 1) then
      some (path.drop (dir.length + 1))
    else none
  else none

/-- The names of the immediate entries of a directory. -/
def Disk.listing (d : Disk) (p : List Char) : List (List Char) :=
  d.entries.filterMap (fun e => childName (canon p) e.path)

/-- Host primitive `GetFileAttributes`. -/
def GetFileAttributes (d : Disk) (p : List Char) : Nat :=
  match d.find p with
  | some e => e.attrs
  | none => INVALID_FILE_ATTRIBUTES

/-- Host primitive `RemoveDirectory` together with the `GetLastError` value it leaves: an
empty directory is removed; a directory that still has entries fails with
`ERROR_DIR_NOT_EMPTY`. -/
def RemoveDirectory (d : Disk) (p : List Char) : Disk × Bool × Nat :=
  match d.find p with
  | none => (d, false, ERROR_PATH_NOT_FOUND)
  | some e =>
    if e.isDir then
      if d.listing p = [] then
        ({ d with entries := d.entries.filter (fun x => decide (x.path ≠ canon p)),
                  journal := d.journal ++ [canon p] }, true, 0)
      else (d, false, ERROR_DIR_NOT_EMPTY)
    else (d, false, ERROR_DIRECTORY)

/-- C runtime `_unlink`: deletes a file; fails on a directory or a missing path. -/
def _unlink (d : Disk) (p : List Char) : Disk × Int :=
  match d.find p with
  | none => ({ d with errno := ENOENT }, -1)
  | some e =>
    if e.isDir then ({ d with errno := EACCES }, -1)
    else
      ({ d with entries := d.entries.filter (fun x => decide (x.path ≠ canon p)),
                journal := d.journal ++ [canon p] }, 0)

/-- Directory stream `opendir` / `readdir`: the entries `.` and `..` followed by the names
of the immediate entries, as they stand when the stream is opened; `none` is the null
stream. -/
def opendir (d : Disk) (p : List Char) : Option (List (List Char)) :=
  match d.find p with
  | none => none
  | some e => if e.isDir then some (['.'] :: ['.', '.'] :: d.listing p) else none

/-- The path of the directory that holds `p`, when `p` has a separator. -/
def parentPath (p : List Char) : Option (List Char) :=
  if '/' ∈ p then some ((p.reverse.dropWhile (fun c => c != '/')).drop 1).reverse else none

/-- Whether the host can create an entry at `p`: `p` lies directly under the working
directory, or the directory that is to hold it exists. -/
def parentIsDir (d : Disk) (p : List Char) : Bool :=
  match parentPath p with
  | none => true
  | some q =>
    match d.find q with
    | some e => e.isDir
    | none => false

/-- C runtime `_mkdir`: creates one directory.  It fails with `EEXIST` when the name is
taken and with `ENOENT` when the directory that is to hold it is missing. -/
def _mkdir (d : Disk) (p : List Char) : Disk × Int :=
  match d.find p with
  | some _ => ({ d with errno := EEXIST }, -1)
  | none =>
    if canon p ≠ [] ∧ parentIsDir d (canon p) then
      ({ d with entries := d.entries ++ [{ path := canon p, attrs := FILE_ATTRIBUTE_DIRECTORY }] }, 0)
    else ({ d with errno := ENOENT }, -1)

/-! ## Directory manager: the shim

The scratch buffers that `rmdir_resovled` and `rmdir_win32` obtain with `malloc(MAX_PATH)` are
lists here.  A `strcpy` or `memcpy` into one of them is guarded by a test that the text and
its terminator fit `MAX_PATH` bytes; when they do not fit, the source writes past the buffer
and the embedding yields `none`. -/

/-- The host constant `MAX_PATH` of `<windows.h>`. -/
def MAX_PATH : Nat := 260

/-- The scan `while(s<l) { if(rm_path[s]=='/') {...} s++; }` of `mkdir_win32`; the first
argument is the number of iterations left, `l - s`.  At a separator the path is cut there
and `_mkdir` is tried; a failure other than `EEXIST` leaves the loop. -/
def mkdirLoop (rm_path : List Char) : Nat → Nat → Disk → Disk
  | 0, _, d => d
  | k + 1, s, d =>
    if rm_path[s]? = some '/' then
      if (_mkdir d (rm_path.take s)).2 = -1 then
        if (_mkdir d (rm_path.take s)).1.errno ≠ EEXIST then (_mkdir d (rm_path.take s)).1
        else mkdirLoop rm_path k (s + 1) (_mkdir d (rm_path.take s)).1
      else mkdirLoop rm_path k (s + 1) (_mkdir d (rm_path.take s)).1
    else mkdirLoop rm_path k (s + 1) d

/-- Embedding of `mkdir_win32(path, mode)`; `mode` is unused by the source. -/
def mkdir_win32 (d : Disk) (path : List Char) : Disk × Int :=
  let rm_path := posix_path_to_win32 path
  let l := rm_path.length
  let d1 := mkdirLoop rm_path l 0 d
  let r := _mkdir d1 rm_path
  if r.2 = -1 then
    if r.1.errno ≠ EEXIST then (r.1, -1) else (r.1, 0)
  else (r.1, 0)

/-- The loop `while((killfile = readdir(dempty)))` of `rmdir_resovled` over the names of the
stream: `.` and `..` are skipped; for any other name `strcpy(filepath +fpl, killfile->d_name)`
must fit the buffer, then an entry whose attribute word equals `FILE_ATTRIBUTE_DIRECTORY` is
handed to the recursive call `recur` (its result is dropped), any other entry to `_unlink`.
`none` means that `recur` gave no result or that the copy ran past the buffer. -/
def killLoop (recur : Disk → List Char → Option (Disk × Int)) (filepath : List Char) :
    List (List Char) → Disk → Option Disk
  | [], d => some d
  | d_name :: rest, d =>
    if d_name ≠ ['.'] ∧ d_name ≠ ['.', '.'] then
      if filepath.length + d_name.length + 1 ≤ MAX_PATH then
        if GetFileAttributes d (filepath ++ d_name) = FILE_ATTRIBUTE_DIRECTORY then
          match recur d (filepath ++ d_name) with
          | none => none
          | some r => killLoop recur filepath rest r.1
        else killLoop recur filepath rest (_unlink d (filepath ++ d_name)).1
      else none
    else killLoop recur filepath rest d

/-- Embedding of `rmdir_resovled(win32_path)`.  The first argument bounds the depth of the
recursion; `none` means that the bound was reached or that a copy ran past the buffer
`filepath` of `MAX_PATH` bytes: `strcpy(filepath, win32_path)` and the separator that may
follow it must fit together with the terminator.  The test `win32_path[fpl-1]!='/'` is the
test of the last character; on an empty path, where the source reads the byte before the
string, it is taken to hold. -/
def rmdir_resovled : Nat → Disk → List Char → Option (Disk × Int)
  | 0, _, _ => none
  | fuel + 1, d, win32_path =>
    if (RemoveDirectory d win32_path).2.1 then some ((RemoveDirectory d win32_path).1, 0)
    else if (RemoveDirectory d win32_path).2.2 = ERROR_DIR_NOT_EMPTY then
      let filepath := if win32_path.getLast? ≠ some '/' then win32_path ++ ['/'] else win32_path
      let emptied : Option Disk :=
        match opendir d win32_path with
        | some names =>
          if filepath.length + 1 ≤ MAX_PATH then
            killLoop (fun d1 p1 => rmdir_resovled fuel d1 p1) filepath names d
          else none
        | none => some d
      match emptied with
      | none => none
      | some d2 =>
        if (RemoveDirectory d2 win32_path).2.1 then some ((RemoveDirectory d2 win32_path).1, 0)
        else some ({ d2 with errno := EBADF }, -1)
    else some ({ d with errno := EBADF }, -1)

/-- The scan `while(s) { if(win32_path[s]=='/') {...; break;} s--; }` of `rmdir_win32`, with
`s` a signed index.  The result is `some (some s)` when a separator is found at `s`,
`some none` when the scan ends at `s = 0` without one, and `none` when the scan reads
outside the string or exceeds its bound. -/
def splitLoop (win32_path : List Char) : Nat → Int → Option (Option Nat)
  | 0, s => if s ≠ 0 then none else some none
  | fuel + 1, s =>
    if s ≠ 0 then
      if s < 0 ∨ (win32_path.length : Int) ≤ s then none
      else if win32_path[s.toNat]? = some '/' then some (some s.toNat)
      else splitLoop win32_path fuel (s - 1)
    else some none

/-- The loop `while((dirp=readdir(dirrm)))` of `rmdir_win32`: for a name other than `.` and
`..`, `strcpy(delpath +dpl, dirp->d_name)` must fit the buffer (and with it the copy of the
name into `checkwc`); the entry is handed to the recursive removal `recur` when its
attribute word equals `FILE_ATTRIBUTE_DIRECTORY` and its name, cut at `wildcard_length`,
equals `wildcard`; the results are or-ed into `i`, which is `0` or `-1`.  `none` means that
`recur` gave no result or that the copy ran past the buffer. -/
def wildLoop (recur : Disk → List Char → Option (Disk × Int)) (delpath wildcard : List Char)
    (wildcard_length : Nat) : List (List Char) → Disk → Int → Option (Disk × Int)
  | [], d, i => some (d, i)
  | d_name :: rest, d, i =>
    if d_name ≠ ['.'] ∧ d_name ≠ ['.', '.'] then
      if delpath.length + d_name.length + 1 ≤ MAX_PATH then
        if GetFileAttributes d (delpath ++ d_name) = FILE_ATTRIBUTE_DIRECTORY then
          if d_name.take wildcard_length = wildcard then
            match recur d (delpath ++ d_name) with
            | none => none
            | some r =>
              wildLoop recur delpath wildcard wildcard_length rest r.1
                (if i = 0 ∧ r.2 = 0 then 0 else -1)
          else wildLoop recur delpath wildcard wildcard_length rest d i
        else wildLoop recur delpath wildcard wildcard_length rest d i
      else none
    else wildLoop recur delpath wildcard wildcard_length rest d i

/-- Embedding of `rmdir_win32(path)`.  `none` means that the recursion bound was reached,
that a character was read outside the path string (by the test of the last character when
the path is empty, or by the wildcard scan), or that a copy ran past one of the buffers
`wildcard`, `delpath` and `checkwc` of `MAX_PATH` bytes: the literal prefix and the
containing directory must each fit together with the terminator. -/
def rmdir_win32 (fuel : Nat) (d : Disk) (path : List Char) : Option (Disk × Int) :=
  let win32_path := posix_path_to_win32 path
  let l := win32_path.length
  if l = 0 then none
  else if win32_path.getLast? = some '*' then
    match splitLoop win32_path l ((l : Int) - 2) with
    | none => none
    | some found =>
      let wildcard_length := match found with
        | some s => l - 1 - s - 1
        | none => 0
      let wildcard := match found with
        | some s => (win32_path.drop (s + 1)).take (l - 1 - s - 1)
        | none => []
      let delpath := match found with
        | some s => win32_path.take (s + 1)
        | none => win32_path
      if wildcard_length + 1 ≤ MAX_PATH ∧ delpath.length + 1 ≤ MAX_PATH then
        match opendir d delpath with
        | some names =>
          wildLoop (fun d1 p1 => rmdir_resovled fuel d1 p1) delpath wildcard wildcard_length
            names d 0
        | none => some (d, 0)
      else none
  else rmdir_resovled fuel d win32_path

/-! ## Opening a path -/

/-- The access right `GENERIC_READ`. -/
def GENERIC_READ : Nat := 0x80000000

/-- The access right `GENERIC_WRITE`. -/
def GENERIC_WRITE : Nat := 0x40000000

/-- The creation disposition `CREATE_ALWAYS`. -/
def CREATE_ALWAYS : Nat := 2

/-- The creation disposition `OPEN_EXISTING`. -/
def OPEN_EXISTING : Nat := 3

/-- The flag `FILE_FLAG_POSIX_SEMANTICS`. -/
def FILE_FLAG_POSIX_SEMANTICS : Nat := 0x01000000

/-- The flag `FILE_FLAG_BACKUP_SEMANTICS`. -/
def FILE_FLAG_BACKUP_SEMANTICS : Nat := 0x02000000

/-- The sharing modes `FILE_SHARE_READ | FILE_SHARE_WRITE`. -/
def FILE_SHARE_READ_WRITE : Nat := 0x1 ||| 0x2

/-- The C runtime flag `_O_RDWR` of `<fcntl.h>`. -/
def _O_RDWR : Int := 0x0002

/-- The C runtime flag `_O_CREAT` of `<fcntl.h>`. -/
def _O_CREAT : Int := 0x0100

/-- The arguments of a `CreateFile` call. -/
structure CreateFileArgs where
  lpFileName : List Char
  dwDesiredAccess : Nat
  dwShareMode : Nat
  dwCreationDisposition : Nat
  dwFlagsAndAttributes : Nat
deriving DecidableEq, Repr

/-- The `CreateFile` call that the two-argument `open_win32(path, flag)` makes.  The tests
`flag && _O_RDWR` and `flag && _O_CREAT` are logical conjunctions of two integers. -/
def open_win32_call (d : Disk) (path : List Char) (flag : Int) : CreateFileArgs :=
  let desired_access := GENERIC_READ
  let disposition := OPEN_EXISTING
  let attributes := FILE_FLAG_POSIX_SEMANTICS
  let desired_access :=
    if flag ≠ 0 then (if flag ≠ 0 ∧ _O_RDWR ≠ 0 then desired_access ||| GENERIC_WRITE
      else desired_access)
    else desired_access
  let disposition :=
    if flag ≠ 0 then (if flag ≠ 0 ∧ _O_CREAT ≠ 0 then CREATE_ALWAYS else disposition)
    else disposition
  let win32_path := posix_path_to_win32 path
  let isFolder := GetFileAttributes d win32_path = FILE_ATTRIBUTE_DIRECTORY
  { lpFileName := win32_path
    dwDesiredAccess := if isFolder then desired_access ||| GENERIC_WRITE else desired_access
    dwShareMode := FILE_SHARE_READ_WRITE
    dwCreationDisposition := disposition
    dwFlagsAndAttributes :=
      if isFolder then attributes ||| FILE_FLAG_BACKUP_SEMANTICS else attributes }

/-- Embedding of the two-argument `open_win32(path, flag)`: the result of `CreateFile` is
turned into a descriptor, or `-1` with `errno = EBADF`.  `CreateFile` and
`_open_osfhandle` are host functions, taken as parameters. -/
def open_win32 (CreateFile : CreateFileArgs → Int) (open_osfhandle : Int → Int) (d : Disk)
    (path : List Char) (flag : Int) : Disk × Int :=
  let fHandle := CreateFile (open_win32_call d path flag)
  if fHandle ≠ INVALID_HANDLE_VALUE then (d, open_osfhandle fHandle)
  else ({ d with errno := EBADF }, -1)

/-! ## Sample disks -/

/-- Builds an entry from a string path. -/
def mkEntry (path : String) (attrs : Nat) : Entry := { path := path.toList, attrs := attrs }

/-- A disk holding the directory `root` with the subdirectories `foo_1`, `foo_2`, `bar_1`
and the file `foo_3`. -/
def sampleDisk : Disk where
  entries := [mkEntry "root" 0x10, mkEntry "root/foo_1" 0x10, mkEntry "root/foo_2" 0x10,
    mkEntry "root/bar_1" 0x10, mkEntry "root/foo_3" 0x20]
  errno := 0
  journal := []

/-- The same disk, except that the directory `foo_2` also carries the archive attribute. -/
def archiveDisk : Disk where
  entries := [mkEntry "root" 0x10, mkEntry "root/foo_1" 0x10, mkEntry "root/foo_2" 0x30,
    mkEntry "root/bar_1" 0x10, mkEntry "root/foo_3" 0x20]
  errno := 0
  journal := []

/-- A disk holding `root`, a file in it, and a subdirectory with a file of its own. -/
def nestedDisk : Disk where
  entries := [mkEntry "root" 0x10, mkEntry "root/f" 0x20, mkEntry "root/sub" 0x10,
    mkEntry "root/sub/g" 0x20, mkEntry "other" 0x10]
  errno := 0
  journal := []

/-- An empty disk. -/
def emptyDisk : Disk where
  entries := []
  errno := 0
  journal := []

/-! ## Specification vocabulary for the directory manager -/

/-- The text `/s1/s2/...` made of the segments of a list, each preceded by a separator. -/
def joinRest : List (List Char) → List Char
  | [] => []
  | s :: post => '/' :: s ++ joinRest post

/-- The relative path whose segments are `s1` followed by `rest`, joined by `/`. -/
def joinPath (s1 : List Char) (rest : List (List Char)) : List Char := s1 ++ joinRest rest

/-- The paths `pre`, `pre/s1`, `pre/s1/s2`, ... up to the full path: for a path with first
segment `pre`, its proper prefixes followed by the path itself. -/
def prefixesFrom (pre : List Char) : List (List Char) → List (List Char)
  | [] => [pre]
  | s :: post => pre :: prefixesFrom (pre ++ '/' :: s) post

/-- The directories to be created for a list of paths: those that name no entry of `d`. -/
def missingDirs (d : Disk) (ps : List (List Char)) : List Entry :=
  (ps.filter (fun p => (d.find p).isNone)).map
    (fun p => { path := p, attrs := FILE_ATTRIBUTE_DIRECTORY })

/-- A path segment: not empty and free of both separators. -/
def IsSegment (s : List Char) : Prop := s ≠ [] ∧ '/' ∉ s ∧ '\\' ∉ s

instance (s : List Char) : Decidable (IsSegment s) := by
  unfold IsSegment
  infer_instance

/-- Whether path `q` lies strictly below directory `p`: it starts with `p` and a separator. -/
def isUnder (p q : List Char) : Bool := (p ++ ['/']).isPrefixOf q

/-- Whether path `q` is `p` itself or lies below it. -/
def isAtOrUnder (p q : List Char) : Bool := decide (q = p) || isUnder p q

/-- The entries that are left when `p` and everything below it are taken away. -/
def removeTree (p : List Char) (es : List Entry) : List Entry :=
  es.filter (fun e => !isAtOrUnder p e.path)

/-- The entries at and below `r` form a finite tree of files and directories: names are
unique, no path ends with a separator, every directory that an entry's path runs through
(from `r` downwards) is itself present as a directory, and no entry is named `.` or `..`. -/
structure TreeUnder (r : List Char) (es : List Entry) : Prop where
  nodup : (es.map Entry.path).Nodup
  canonical : ∀ e ∈ es, isUnder r e.path = true → e.path.getLast? ≠ some '/'
  closed : ∀ e ∈ es, ∀ q rest, e.path = q ++ '/' :: rest → isAtOrUnder r q = true →
    ∃ e2 ∈ es, e2.path = q ∧ e2.isDir = true
  noDots : ∀ e ∈ es, ∀ q, e.path ≠ q ++ ['/', '.'] ∧ e.path ≠ q ++ ['/', '.', '.']

/-- A condition on attribute words that the model of the file system does not impose: every
directory below `r` has an attribute word equal to `FILE_ATTRIBUTE_DIRECTORY`, with no
further bit.  It is the condition under which the test
`GetFileAttributes(filepath)==FILE_ATTRIBUTE_DIRECTORY` of the shim agrees with the host on
what a directory is. -/
def ExactDirWords (r : List Char) (es : List Entry) : Prop :=
  ∀ e ∈ es, isUnder r e.path = true → e.isDir = true → e.attrs = FILE_ATTRIBUTE_DIRECTORY

instance (r : List Char) (es : List Entry) : Decidable (ExactDirWords r es) := by
  unfold ExactDirWords
  infer_instance

/-- Every path below `r` fits, with its terminator, a buffer of `MAX_PATH` bytes. -/
def FitsBuffer (r : List Char) (es : List Entry) : Prop :=
  ∀ e ∈ es, isUnder r e.path = true → e.path.length + 1 ≤ MAX_PATH

instance (r : List Char) (es : List Entry) : Decidable (FitsBuffer r es) := by
  unfold FitsBuffer
  infer_instance

/-- The length of the longest path of a list of entries. -/
def maxLen : List Entry → Nat
  | [] => 0
  | e :: es => max e.path.length (maxLen es)

/-- What a journal `J` of deletions must satisfy when the subtree at `r` is removed from the
entries `es`: it names only entries that were present at or below `r`, it names every one
of them, and no path of it lies below a path deleted before it. -/
def PostOrder (r : List Char) (es : List Entry) (J : List (List Char)) : Prop :=
  (∀ x ∈ J, isAtOrUnder r x = true ∧ ∃ e ∈ es, e.path = x)
    ∧ (∀ e ∈ es, isAtOrUnder r e.path = true → e.path ∈ J)
    ∧ J.Pairwise (fun a b => isUnder a b = false)

/-- The behaviour of `rmdir_resovled` for a given recursion bound where the test on the
attribute word agrees with the host: on a directory whose subtree is a tree no deeper than
the bound allows, whose directories carry exactly the directory attribute and whose paths fit
the buffer, the call returns `0`, leaves exactly the entries outside the subtree, and deletes
in post-order. -/
def RemovesTree (fuel : Nat) : Prop :=
  ∀ (d : Disk) (p : List Char), p ≠ [] → TreeUnder (canon p) d.entries →
    ExactDirWords (canon p) d.entries → FitsBuffer (canon p) d.entries →
    (∃ e ∈ d.entries, e.path = canon p ∧ e.isDir = true) →
    (∀ e ∈ d.entries, isAtOrUnder (canon p) e.path = true →
      e.path.length < (canon p).length + fuel) →
    ∃ d2 J, rmdir_resovled fuel d p = some (d2, 0)
      ∧ d2.entries = removeTree (canon p) d.entries
      ∧ d2.journal = d.journal ++ J
      ∧ PostOrder (canon p) d.entries J

/-- An executable test for `TreeUnder`: it checks each of the four conditions on the entries
of the list. -/
def treeCheck (r : List Char) (es : List Entry) : Bool :=
  decide (es.map Entry.path).Nodup
    && es.all (fun e => !isUnder r e.path || decide (e.path.getLast? ≠ some '/'))
    && es.all (fun e => (List.range e.path.length).all (fun i =>
        !(decide (e.path[i]? = some '/') && isAtOrUnder r (e.path.take i))
          || es.any (fun e2 => decide (e2.path = e.path.take i) && e2.isDir)))
    && es.all (fun e => !(['/', '.'].isSuffixOf e.path) && !(['/', '.', '.'].isSuffixOf e.path))

/-! ## The wildcard split of `rmdir_win32` -/

/-- The split that `rmdir_win32` performs on a normalized path whose last character is the
wildcard marker, with the same scan and the same expressions as in `rmdir_win32`: the result
holds the path left in `win32_path` (the containing directory), the text copied to `wildcard`
(the literal prefix) and `wildcard_length`.  `none` means that the scan read outside the path
string.  Whether the prefix fits the buffer `wildcard` is tested in `rmdir_win32`. -/
def rmdir_win32_split (win32_path : List Char) : Option (List Char × List Char × Nat) :=
  match splitLoop win32_path win32_path.length ((win32_path.length : Int) - 2) with
  | none => none
  | some (some s) =>
    some (win32_path.take (s + 1),
      (win32_path.drop (s + 1)).take (win32_path.length - 1 - s - 1),
      win32_path.length - 1 - s - 1)
  | some none => some (win32_path, [], 0)

/-- What the specification asks of the split of a pattern: the containing directory is the
path with its final segment removed, the literal prefix is the text of the final segment
before the wildcard marker.  The final segment starts after the last separator, or at the
start of the path when there is none. -/
def expectedSplit (win32_path : List Char) : List Char × List Char :=
  ((win32_path.reverse.dropWhile (fun c => c != '/')).reverse,
    (win32_path.reverse.takeWhile (fun c => c != '/')).reverse.dropLast)

/-- A disk whose working directory holds the directories `foo_1` and `foo_2`. -/
def topLevelDisk : Disk where
  entries := [mkEntry "foo_1" 0x10, mkEntry "foo_2" 0x10]
  errno := 0
  journal := []

/-! ## Time of day -/

/-- Conversion of an integer to `long`, which is 32 bits wide for the compiler the shim
targets; a value out of range wraps. -/
def toLong (z : Int) : Int := toInt32 (toDWORD z)

/-- The record `timeval`, two fields of type `long`. -/
structure timeval where
  tv_sec : Int
  tv_usec : Int
deriving DecidableEq, Repr

/-- Embedding of `gettimeofday_win32(tv, tz)`.  `now` is the value that `time(&tt)` stores,
`tickCount` the result of `GetTickCount()`, and `tv = none` is the null pointer; `tz` is not
used by the source.  In `(long)tt*1000 +usc` the product is a `long`, the sum with the
`DWORD` `usc` is unsigned, and the store into `tv_usec` converts back to `long`.  The result
is the record afterwards and the returned `int`. -/
def gettimeofday_win32 (now : Int) (tickCount : Nat) (tv : Option timeval) :
    Option timeval × Int :=
  match tv with
  | some _ =>
    let usc : Nat := tickCount % 1000
    let product : Int := toLong (toLong now * 1000)
    (some { tv_sec := toLong now, tv_usec := toInt32 ((toDWORD product + usc) % 2 ^ 32) }, -1)
  | none => (none, -1)

/-! ## Properties of the path translator -/

theorem slashLoop_beyond (k i : Nat) (buf : List Char) (h : buf.length ≤ i) :
    slashLoop k i buf = buf := by
  induction k generalizing i with
  | zero => rfl
  | succ k ih =>
    have hnone : buf[i]? = none := List.getElem?_eq_none h
    simp only [slashLoop, hnone]
    exact ih (i + 1) (by omega)

theorem slashLoop_append (k : Nat) (pre rest : List Char) :
    slashLoop k pre.length (pre ++ rest) = pre ++ (rest.take k).map toSlash ++ rest.drop k := by
  induction k generalizing pre rest with
  | zero => simp [slashLoop]
  | succ k ih =>
    cases rest with
    | nil =>
      simp only [List.append_nil, List.take_nil, List.map_nil, List.drop_nil]
      exact slashLoop_beyond (k + 1) pre.length pre (le_refl _)
    | cons c rest =>
      have hget : (pre ++ c :: rest)[pre.length]? = some c := by
        rw [List.getElem?_append_right (le_refl _)]; simp
      have hset : (pre ++ c :: rest).set pre.length '/' = (pre ++ ['/']) ++ rest := by simp
      have hsplit : pre ++ c :: rest = (pre ++ [c]) ++ rest := by simp
      simp only [slashLoop, hget]
      by_cases hc : c = '\\'
      · subst hc
        have h1 := ih (pre ++ ['/']) rest
        simp only [List.length_append, List.length_singleton] at h1
        simp only [if_true, hset, h1]
        simp [toSlash]
      · have hne : ¬ (some c = some '\\') := by simpa using hc
        have h1 := ih (pre ++ [c]) rest
        simp only [List.length_append, List.length_singleton] at h1
        rw [if_neg hne, hsplit, h1]
        simp [toSlash, hc]

theorem slashLoop_whole (buf : List Char) : slashLoop buf.length 0 buf = buf.map toSlash := by
  have h := slashLoop_append buf.length [] buf
  simpa using h

theorem toSlash_ne_backslash (c : Char) : toSlash c ≠ '\\' := by
  unfold toSlash
  by_cases hc : c = '\\'
  · rw [if_pos hc]; decide
  · rw [if_neg hc]; exact hc

theorem toSlash_idem (c : Char) : toSlash (toSlash c) = toSlash c := by
  unfold toSlash
  by_cases hc : c = '\\'
  · simp [hc]
  · simp [hc]

theorem map_toSlash_of_not_mem (r : List Char) (h : '\\' ∉ r) : r.map toSlash = r := by
  induction r with
  | nil => rfl
  | cons c r ih =>
    have hc : c ≠ '\\' := fun hh => h (by simp [hh])
    have hr : '\\' ∉ r := fun hh => h (List.mem_cons_of_mem _ hh)
    simp [toSlash, hc, ih hr]

/-- The closed form of `posix_path_to_win32`. -/
theorem posix_path_to_win32_eq (p : List Char) :
    posix_path_to_win32 p =
      (if p.head? = some '/' ∨ p.head? = some '\\' then ['.'] else []) ++ p.map toSlash := by
  unfold posix_path_to_win32
  by_cases h : p.head? = some '\\' ∨ p.head? = some '/'
  · have h2 : p.head? = some '/' ∨ p.head? = some '\\' := h.symm
    have hl : p.length + 1 = ('.' :: p).length := by simp
    simp only [if_pos h, if_pos h2]
    rw [hl, slashLoop_whole]
    simp [toSlash]
  · have h2 : ¬ (p.head? = some '/' ∨ p.head? = some '\\') := fun hh => h hh.symm
    simp only [if_neg h, if_neg h2]
    rw [slashLoop_whole]
    simp

/-- Claim C3: `posix_path_to_win32 p` is `p` with every backslash turned into a slash,
preceded by one `.` exactly when `p` starts with a slash or a backslash; the result holds no
backslash, the empty path maps to the empty path, and translating a result again changes
nothing. -/
theorem posix_path_to_win32_spec (p : List Char) :
    posix_path_to_win32 p =
        (if p.head? = some '/' ∨ p.head? = some '\\' then ['.'] else []) ++ p.map toSlash
      ∧ (∀ c, toSlash c = if c = '\\' then '/' else c)
      ∧ '\\' ∉ posix_path_to_win32 p
      ∧ posix_path_to_win32 [] = []
      ∧ posix_path_to_win32 (posix_path_to_win32 p) = posix_path_to_win32 p := by
  refine ⟨posix_path_to_win32_eq p, fun c => rfl, ?_, by decide, ?_⟩
  · rw [posix_path_to_win32_eq]
    intro hmem
    rcases List.mem_append.mp hmem with h | h
    · split at h
      · simp at h
      · simp at h
    · obtain ⟨c, _, hc⟩ := List.mem_map.mp h
      exact toSlash_ne_backslash c hc
  · have hno : '\\' ∉ posix_path_to_win32 p := by
      rw [posix_path_to_win32_eq]
      intro hmem
      rcases List.mem_append.mp hmem with h | h
      · split at h
        · simp at h
        · simp at h
      · obtain ⟨c, _, hc⟩ := List.mem_map.mp h
        exact toSlash_ne_backslash c hc
    have hmap : (posix_path_to_win32 p).map toSlash = posix_path_to_win32 p :=
      map_toSlash_of_not_mem _ hno
    have hhead : ¬ ((posix_path_to_win32 p).head? = some '/'
        ∨ (posix_path_to_win32 p).head? = some '\\') := by
      rw [posix_path_to_win32_eq p]
      cases p with
      | nil => simp
      | cons c q =>
        by_cases hc : c = '/' ∨ c = '\\'
        · have h1 : (c :: q).head? = some '/' ∨ (c :: q).head? = some '\\' := by simpa using hc
          rw [if_pos h1]
          simp only [List.singleton_append, List.head?_cons, Option.some.injEq]
          decide
        · have h1 : ¬ ((c :: q).head? = some '/' ∨ (c :: q).head? = some '\\') := by
            simpa using hc
          have hc2 : c ≠ '\\' := fun h => hc (Or.inr h)
          have h3 : toSlash c = c := by simp [toSlash, hc2]
          rw [if_neg h1]
          simp only [List.nil_append, List.map_cons, List.head?_cons, h3, Option.some.injEq]
          exact hc
    rw [posix_path_to_win32_eq (posix_path_to_win32 p), if_neg hhead, hmap]
    rfl

/-- More iterations than `l - i` change nothing: the bound passed to `fullLoop` by
`posix_path_to_win32_full` lets the loop run to its natural end. -/
theorem fullLoop_fuel (l fuel extra i : Nat) (buf : List Char) (h : l - i ≤ fuel) :
    fullLoop l (fuel + extra) i buf = fullLoop l fuel i buf := by
  induction fuel generalizing i buf with
  | zero =>
    have hi : ¬ i < l := by omega
    cases extra with
    | zero => rfl
    | succ e => simp [fullLoop, hi]
  | succ f ih =>
    have hrw : f + 1 + extra = (f + extra) + 1 := by omega
    rw [hrw]
    simp only [fullLoop]
    by_cases hi : i < l
    · simp only [if_pos hi]
      by_cases hc : buf[i]? = some '/'
      · simp only [if_pos hc]
        exact ih (i + 1 + 1) _ (by omega)
      · simp only [if_neg hc]
        exact ih (i + 1) _ (by omega)
    · simp only [if_neg hi]

/-- Claim C4 (failing input): on `a//b` the scan of `posix_path_to_win32_full` steps over the
character that follows a converted slash, so the second slash stays. -/
theorem posix_path_to_win32_full_double_slash :
    posix_path_to_win32_full "a//b".toList = ['a', '\\', '/', 'b']
      ∧ '/' ∈ posix_path_to_win32_full "a//b".toList := by
  decide

/-! ## Properties of the descriptor shim -/

theorem toInt32_of_lt (n : Nat) (h : n < 2 ^ 31) : toInt32 n = (n : Int) := by
  unfold toInt32
  have h1 : n % 2 ^ 32 = n := Nat.mod_eq_of_lt (by omega)
  rw [h1, if_pos h]

theorem toDWORD_of_nonneg (z : Int) (h0 : 0 ≤ z) (h1 : z < 2 ^ 32) : toDWORD z = z.toNat := by
  unfold toDWORD
  rw [Int.emod_eq_of_lt h0 h1]

/-- The result of `pread_win32` is `(int)rt`: reading `2^31` bytes at offset `0` of a file of
`2^31` bytes returns `-2147483648`, not the `2^31` bytes that are available there. -/
theorem pread_win32_large_count :
    (pread_win32 bigFileHost 3 (2 ^ 31) 0).ret = -2147483648
      ∧ ¬ PreadContract bigFileHost 3 (2 ^ 31) 0 := by
  have hret : (pread_win32 bigFileHost 3 (2 ^ 31) 0).ret = -2147483648 := by
    simp [pread_win32, _get_osfhandle, bigFileHost, ReadFile, toInt32, toDWORD]
  refine ⟨hret, ?_⟩
  intro hc
  have h := (hc { size := 2 ^ 31, byteAt := fun _ => 0, pos := 0, canWrite := true }
    (by simp [bigFileHost])).1
  rw [hret] at h
  simp at h

/-- On a host whose `OVERLAPPED` reads move the file pointer, `pread_win32` moves it: after
reading `4` bytes at offset `2` the pointer stands at `6`, not at `5` where it was. -/
theorem pread_win32_moving_host :
    (movingHost.file (movingHost.osfhandle 3)).map HostFile.pos = some 5
      ∧ ((pread_win32 movingHost 3 4 2).host.file (movingHost.osfhandle 3)).map HostFile.pos
          = some 6 := by
  decide

/-- Claim C1 (failing input): on a host whose read through an `OVERLAPPED` record moves the
file pointer of the handle, with descriptor `3` standing at position `5` of an eight-byte
file, `pread_win32(fd, buf, 4, 2)` returns `4` with the bytes from offset `2`, and it leaves
the file pointer at `6`: the shim performs the one `ReadFile` and nothing that saves or
restores the pointer.  A following sequential read of two bytes returns the bytes from `6`,
not those from `5`, and the positioned-read contract fails. -/
theorem pread_win32_moves_pointer :
    (movingHost.file (movingHost.osfhandle 3)).map HostFile.pos = some 5
      ∧ (pread_win32 movingHost 3 4 2).ret = 4
      ∧ (pread_win32 movingHost 3 4 2).buff = [3, 4, 5, 6]
      ∧ (pread_win32 movingHost 3 4 2).host.log = [HostCall.ReadFile 100]
      ∧ ((pread_win32 movingHost 3 4 2).host.file (movingHost.osfhandle 3)).map HostFile.pos
          = some 6
      ∧ (sequentialRead (pread_win32 movingHost 3 4 2).host (movingHost.osfhandle 3) 2).2.2
          = [7, 8]
      ∧ (sequentialRead movingHost (movingHost.osfhandle 3) 2).2.2 = [6, 7]
      ∧ ¬ PreadContract movingHost 3 4 2 := by
  refine ⟨by decide, by decide, by decide, by decide, by decide, by decide, by decide, ?_⟩
  intro hc
  have h := (hc { size := 8, byteAt := fun i => i + 1, pos := 5, canWrite := false } rfl).2.2.1
  revert h
  decide

/-- What `pread_win32` does when the host leaves the file pointer alone on a read through an
`OVERLAPPED` record: for a descriptor with a non-null handle and an open file behind it, an
offset `0 ≤ O < 2^32` and a size for which fewer than `2^31` bytes are transferred, it
returns the number of bytes available at `O` (at most the size), stores the bytes from `O`,
and the file pointer, which the host did not move, is where it was. -/
theorem pread_win32_contract (H : Host) (fd : Int) (size : Nat) (offset : Int) (f : HostFile)
    (hkeep : H.overlappedMovesPointer = false)
    (hnull : H.osfhandle fd ≠ 0)
    (hfile : H.file (H.osfhandle fd) = some f)
    (h0 : 0 ≤ offset) (h1 : offset < 2 ^ 32)
    (hcount : min size (f.size - offset.toNat) < 2 ^ 31) :
    PreadContract H fd size offset := by
  intro g hg
  rw [hfile] at hg
  cases hg
  have hoff : toDWORD offset = offset.toNat := toDWORD_of_nonneg offset h0 h1
  have hp : pread_win32 H fd size offset =
      { host := { H with log := H.log ++ [HostCall.ReadFile (H.osfhandle fd)],
                         file := Function.update H.file (H.osfhandle fd) (some f) },
        ret := ((min size (f.size - offset.toNat) : Nat) : Int),
        buff := f.bytesFrom offset.toNat size } := by
    simp only [pread_win32, _get_osfhandle, ReadFile, hfile, hkeep, hoff]
    simp [hnull, toInt32_of_lt _ hcount]
  rw [hp]
  refine ⟨rfl, rfl, by simp, ?_⟩
  intro m
  simp [sequentialRead]

/-- The preceding statement applied to the descriptor `3` of `readOnlyHost`, reading `4`
bytes at offset `2`. -/
theorem pread_win32_contract_witness :
    PreadContract readOnlyHost 3 4 2 ∧ (pread_win32 readOnlyHost 3 4 2).ret = 4
      ∧ (pread_win32 readOnlyHost 3 4 2).buff = [3, 4, 5, 6] :=
  ⟨pread_win32_contract readOnlyHost 3 4 2
      { size := 8, byteAt := fun i => i + 1, pos := 5, canWrite := false }
      rfl (by decide) rfl (by decide) (by decide) (by decide),
    by decide, by decide⟩


/-- Claim C2 (failing input): on a descriptor opened without write access, standing at
position `5`, `ftruncate_win32(fd, 3)` moves the file pointer to `3`, fails to relocate the end
of the file, and returns `-1` with the pointer left at `3`. -/
theorem ftruncate_win32_failure_leaves_pointer_moved :
    (readOnlyHost.file (readOnlyHost.osfhandle 3)).map HostFile.pos = some 5
      ∧ (ftruncate_win32 readOnlyHost 3 3).2 = -1
      ∧ ((ftruncate_win32 readOnlyHost 3 3).1.file (readOnlyHost.osfhandle 3)).map HostFile.pos
          = some 3
      ∧ (ftruncate_win32 readOnlyHost 3 3).1.log
          = [HostCall.SetFilePointer 100, HostCall.SetEndOfFile 100] := by
  decide

/-- The success path of `ftruncate_win32`: when the call returns `0` the file has exactly the
requested length and the file pointer is back where it was. -/
theorem ftruncate_win32_success (H : Host) (fd : Int) (length : Int) (f : HostFile)
    (hfile : H.file (H.osfhandle fd) = some f)
    (hret : (ftruncate_win32 H fd length).2 = 0) :
    0 ≤ length ∧ ∃ g, (ftruncate_win32 H fd length).1.file (H.osfhandle fd) = some g
      ∧ (g.size : Int) = length ∧ g.pos = f.pos := by
  unfold ftruncate_win32 at hret ⊢
  simp only [_get_osfhandle] at hret ⊢
  by_cases hnull : H.osfhandle fd ≠ 0
  · simp only [if_pos hnull] at hret ⊢
    by_cases hpos : f.pos < 2 ^ 31
    · have htell : _tell H fd = (f.pos : Int) := by simp only [_tell, hfile, if_pos hpos]
      have hcpos : toDWORD (_tell H fd) = f.pos := by
        rw [htell, toDWORD_of_nonneg _ (by omega) (by omega)]; simp
      have hne : f.pos ≠ 0xFFFFFFFF := by omega
      simp only [hcpos, if_pos hne] at hret ⊢
      by_cases hlen : length < 0
      · simp [SetFilePointer, hfile, hlen, INVALID_SET_FILE_POINTER] at hret
      · have hlen0 : 0 ≤ length := by omega
        by_cases hw : f.canWrite = true
        · by_cases hd : toDWORD length ≠ 0xFFFFFFFF
          · refine ⟨hlen0, ?_⟩
            have h31 : toInt32 f.pos = (f.pos : Int) := toInt32_of_lt _ hpos
            have hnn : ¬ ((f.pos : Int) < 0) := by omega
            simp [SetFilePointer, SetEndOfFile, hfile, hlen, hw, hd, h31, hnn]
            omega
          · simp [SetFilePointer, hfile, hlen, hd] at hret
        · by_cases hd : toDWORD length ≠ 0xFFFFFFFF
          · simp [SetFilePointer, SetEndOfFile, hfile, hlen, hw, hd] at hret
          · simp [SetFilePointer, hfile, hlen, hd] at hret
    · have htell : _tell H fd = -1 := by simp only [_tell, hfile, if_neg hpos]
      have hcpos : toDWORD (_tell H fd) = 0xFFFFFFFF := by rw [htell]; decide
      simp [hcpos] at hret
  · simp [hnull] at hret


/-- Claim C9 (counterexample): with a bad descriptor, whose lookup yields
`INVALID_HANDLE_VALUE`, `fsync_win32` does call `FlushFileBuffers` on that handle, and
`pread_win32`, which only tests the handle against null, does call `ReadFile` on it. -/
theorem handle_validation_counterexample :
    _get_osfhandle noDescriptorHost 7 = INVALID_HANDLE_VALUE
      ∧ (fsync_win32 noDescriptorHost 7).1.log = [HostCall.FlushFileBuffers INVALID_HANDLE_VALUE]
      ∧ (pread_win32 noDescriptorHost 7 16 0).host.log
          = [HostCall.ReadFile INVALID_HANDLE_VALUE] := by
  decide

/-- Under the modelled `ReadFile`, which zeroes the transfer count before any check,
`pread_win32` on a bad descriptor returns `0`. -/
theorem pread_win32_bad_descriptor_ret : (pread_win32 noDescriptorHost 7 16 0).ret = 0 := by
  decide

/-- Claim C9 (amended): when no open file stands behind the handle of the descriptor (null or
`INVALID_HANDLE_VALUE`), `ftruncate_win32` returns `-1` without any host operation and leaves
the host as it was; `fsync_win32` hands the handle to `FlushFileBuffers`, its only host
operation, and reports the failure as `-1` with `errno = EBADF`; and when the handle is null
`pread_win32` returns `-1` without any host operation. -/
theorem handle_validation (H : Host) (fd : Int) (size : Nat) (offset length : Int)
    (hbad : H.file (H.osfhandle fd) = none) :
    ((ftruncate_win32 H fd length).2 = -1 ∧ (ftruncate_win32 H fd length).1.log = H.log)
      ∧ ((fsync_win32 H fd).2 = -1 ∧ (fsync_win32 H fd).1.errno = EBADF
          ∧ (fsync_win32 H fd).1.log = H.log ++ [HostCall.FlushFileBuffers (H.osfhandle fd)])
      ∧ (H.osfhandle fd = 0 →
          (pread_win32 H fd size offset).ret = -1
            ∧ (pread_win32 H fd size offset).host.log = H.log) := by
  have htell : toDWORD (_tell H fd) = 0xFFFFFFFF := by
    simp only [_tell, hbad]; decide
  refine ⟨?_, ?_, ?_⟩
  · unfold ftruncate_win32
    by_cases hnull : _get_osfhandle H fd ≠ 0
    · simp [hnull, htell]
    · simp [hnull]
  · simp [fsync_win32, FlushFileBuffers, _get_osfhandle, hbad]
  · intro h0
    have hrt : toInt32 (toDWORD (-1)) = -1 := by decide
    simp [pread_win32, _get_osfhandle, h0, hrt]

/-- Witness for claim C9: the amended statement applied to a descriptor of
`noDescriptorHost`. -/
theorem handle_validation_witness :
    noDescriptorHost.file (noDescriptorHost.osfhandle 7) = none
      ∧ (ftruncate_win32 noDescriptorHost 7 3).2 = -1
      ∧ (fsync_win32 noDescriptorHost 7).2 = -1 :=
  ⟨rfl, (handle_validation noDescriptorHost 7 16 0 3 rfl).1.1,
    (handle_validation noDescriptorHost 7 16 0 3 rfl).2.1.1⟩

/-! ## Properties of the sleep shim -/

theorem pollLoop_some_ge (counter : Nat → Nat) (wait fuel k tick last : Nat)
    (h : pollLoop counter wait fuel k tick = some last) : wait ≤ last := by
  induction fuel generalizing k tick with
  | zero =>
    simp only [pollLoop] at h
    split at h
    · cases h
    · cases h; omega
  | succ n ih =>
    simp only [pollLoop] at h
    split at h
    · exact ih _ _ h
    · cases h; omega

theorem pollLoop_terminates (counter : Nat → Nat) (wait fuel k tick j : Nat)
    (hj1 : k ≤ j) (hj2 : j < k + fuel) (hreach : wait ≤ counter j) :
    ∃ last, pollLoop counter wait fuel k tick = some last := by
  induction fuel generalizing k tick with
  | zero => omega
  | succ n ih =>
    simp only [pollLoop]
    by_cases hw : wait > tick
    · simp only [if_pos hw]
      by_cases hkj : k = j
      · subst hkj
        cases n with
        | zero => exact ⟨counter k, by simp [pollLoop]; omega⟩
        | succ m => exact ⟨counter k, by simp [pollLoop]; omega⟩
      · exact ih (k + 1) (counter k) (by omega) (by omega)
    · exact ⟨tick, by simp [hw]⟩

/-- Claim C10 (counterexample): for `d = 10001` the coarse path is taken and `Sleep` receives
`10` milliseconds, which is less than the requested duration. -/
theorem usleep_win32_coarse_short :
    usleep_win32 10000000 steadyCounter 0 10001 = some (SleepTrace.coarse 10)
      ∧ 10 * 1000 < 10001 := by
  decide

/-- Claim C10 (amended): `usleep_win32(d)` polls the counter exactly when `d < 10000` and calls
the host sleep otherwise.  On the coarse path with `d < 2^32` the millisecond count is
`d / 1000` rounded down, so the sleep is short of `d` by less than a millisecond and exact
when `d` is a multiple of `1000`.  On the polling path, when `fq * d` and the target fit 64
bits, the target is the first reading plus `fq * d / 1000000`, the loop ends as soon as the
readings reach the target, and whenever it ends the last reading is at or past the target. -/
theorem usleep_win32_contract (fq : Nat) (counter : Nat → Nat) (d : Nat) :
    (10000 ≤ d → ∀ fuel,
        usleep_win32 fq counter fuel d = some (SleepTrace.coarse (d % 2 ^ 32 / 1000)))
      ∧ (10000 ≤ d → d < 2 ^ 32 →
          d % 2 ^ 32 / 1000 * 1000 ≤ d ∧ d < d % 2 ^ 32 / 1000 * 1000 + 1000
            ∧ (1000 ∣ d → d % 2 ^ 32 / 1000 * 1000 = d))
      ∧ (d < 10000 → fq * d / 1000000 + counter 0 < 2 ^ 64 → fq * d < 2 ^ 64 →
          (∀ fuel t, usleep_win32 fq counter fuel d = some t →
              ∃ last, t = SleepTrace.busyPoll (counter 0) (counter 0 + fq * d / 1000000) last
                ∧ counter 0 + fq * d / 1000000 ≤ last)
          ∧ (∀ j, counter 0 + fq * d / 1000000 ≤ counter j →
              ∃ last, usleep_win32 fq counter (j + 1) d
                = some (SleepTrace.busyPoll (counter 0) (counter 0 + fq * d / 1000000) last))) := by
  refine ⟨?_, ?_, ?_⟩
  · intro hd fuel
    have h : ¬ d < 10000 := by omega
    simp [usleep_win32, h]
  · intro hd h32
    have hm : d % 2 ^ 32 = d := Nat.mod_eq_of_lt h32
    rw [hm]
    refine ⟨Nat.div_mul_le_self d 1000, ?_, ?_⟩
    · have := Nat.lt_div_mul_add (a := d) (b := 1000) (by decide)
      omega
    · intro hdvd
      exact Nat.div_mul_cancel hdvd
  · intro hd hfit hmul
    have hw : ((fq * d) % 2 ^ 64 / 1000000 + counter 0) % 2 ^ 64
        = counter 0 + fq * d / 1000000 := by
      rw [Nat.mod_eq_of_lt hmul, Nat.mod_eq_of_lt hfit]; omega
    constructor
    · intro fuel t ht
      simp only [usleep_win32, if_pos hd, hw] at ht
      cases hp : pollLoop counter (counter 0 + fq * d / 1000000) fuel 1 (counter 0) with
      | none => rw [hp] at ht; cases ht
      | some last =>
        rw [hp] at ht
        simp only [Option.map_some', Option.some.injEq] at ht
        exact ⟨last, ht.symm, pollLoop_some_ge _ _ _ _ _ _ hp⟩
    · intro j hj
      simp only [usleep_win32, if_pos hd, hw]
      by_cases hj0 : j = 0
      · subst hj0
        have : ¬ (counter 0 + fq * d / 1000000 > counter 0) := by omega
        exact ⟨counter 0, by simp [pollLoop, this]⟩
      · obtain ⟨last, hl⟩ := pollLoop_terminates counter (counter 0 + fq * d / 1000000)
          (j + 1) 1 (counter 0) j (by omega) (by omega) hj
        exact ⟨last, by simp [hl]⟩

/-- Witness for claim C10: the amended statement applied to `d = 50000` (coarse path) and to
`d = 5000` with a counter of frequency `10^7` (polling path). -/
theorem usleep_win32_contract_witness :
    usleep_win32 10000000 steadyCounter 0 50000 = some (SleepTrace.coarse 50)
      ∧ ∃ last, usleep_win32 10000000 steadyCounter 51 5000
          = some (SleepTrace.busyPoll (steadyCounter 0) (steadyCounter 0 + 10000000 * 5000 / 1000000) last) :=
  ⟨(usleep_win32_contract 10000000 steadyCounter 50000).1 (by decide) 0,
    ((usleep_win32_contract 10000000 steadyCounter 5000).2.2 (by decide) (by decide)
      (by decide)).2 50 (by decide)⟩


/-! ## Properties of the directory manager: creation -/

theorem canon_of_no_trailing (p : List Char) (h : p.getLast? ≠ some '/') : canon p = p := by
  simp [canon, h]

theorem getLast?_append_segment (pre s : List Char) (hs : s ≠ []) (hno : '/' ∉ s) :
    (pre ++ '/' :: s).getLast? ≠ some '/' := by
  have h1 : (pre ++ '/' :: s).getLast? = s.getLast? := by
    cases s with
    | nil => exact absurd rfl hs
    | cons c t =>
      rw [List.getLast?_append, List.getLast?_cons_cons,
        List.getLast?_eq_getLast _ (List.cons_ne_nil c t)]
      rfl
  rw [h1]
  intro h
  exact hno (List.mem_of_getLast?_eq_some h)

theorem getLast?_segment (s : List Char) (hno : '/' ∉ s) : s.getLast? ≠ some '/' := by
  intro h
  exact hno (List.mem_of_getLast?_eq_some h)

theorem dropWhile_segment (l r : List Char) (h : '/' ∉ l) :
    (l ++ '/' :: r).dropWhile (fun c => c != '/') = '/' :: r := by
  induction l with
  | nil => simp [List.dropWhile]
  | cons c l ih =>
    have hc : c ≠ '/' := fun hh => h (by simp [hh])
    have hl : '/' ∉ l := fun hh => h (List.mem_cons_of_mem _ hh)
    have hb : (c != '/') = true := by simpa using hc
    rw [List.cons_append, List.dropWhile_cons, hb]
    simpa using ih hl

theorem parentPath_append_segment (pre s : List Char) (hno : '/' ∉ s) :
    parentPath (pre ++ '/' :: s) = some pre := by
  have hmem : '/' ∈ pre ++ '/' :: s := by simp
  have hrev : (pre ++ '/' :: s).reverse = s.reverse ++ '/' :: pre.reverse := by simp
  have hno2 : '/' ∉ s.reverse := by simpa using hno
  simp only [parentPath, if_pos hmem, hrev, dropWhile_segment _ _ hno2]
  simp

theorem parentPath_segment (s : List Char) (hno : '/' ∉ s) : parentPath s = none := by
  simp [parentPath, hno]

theorem find_eq_none_iff (d : Disk) (p : List Char) :
    d.find p = none ↔ ∀ e ∈ d.entries, e.path ≠ canon p := by
  simp [Disk.find, List.find?_eq_none]

theorem find_some_spec (d : Disk) (p : List Char) (e : Entry) (h : d.find p = some e) :
    e ∈ d.entries ∧ e.path = canon p := by
  unfold Disk.find at h
  refine ⟨List.mem_of_find?_eq_some h, ?_⟩
  have := List.find?_some h
  simpa using this

/-- The outcome of `_mkdir` at a path whose holder is present. -/
theorem mkdir_of_parent (d : Disk) (p : List Char) (hne : p ≠ [])
    (hlast : p.getLast? ≠ some '/') (hpar : parentIsDir d p = true) :
    _mkdir d p = if (d.find p).isNone then
        ({ d with entries := d.entries ++ [{ path := p, attrs := FILE_ATTRIBUTE_DIRECTORY }] }, 0)
      else ({ d with errno := EEXIST }, -1) := by
  have hc : canon p = p := canon_of_no_trailing p hlast
  unfold _mkdir
  cases hf : d.find p with
  | none => simp [hc, hne, hpar]
  | some e => simp

theorem mkdir_of_parent_entries (d : Disk) (p : List Char) (hne : p ≠ [])
    (hlast : p.getLast? ≠ some '/') (hpar : parentIsDir d p = true) :
    (_mkdir d p).1.entries = d.entries ++ missingDirs d [p]
      ∧ (_mkdir d p).1.journal = d.journal
      ∧ ((_mkdir d p).2 = -1 → (_mkdir d p).1.errno = EEXIST) := by
  rw [mkdir_of_parent d p hne hlast hpar]
  cases hf : d.find p with
  | none => simp [missingDirs, hf]
  | some e => simp [missingDirs, hf]

theorem mkdirLoop_skip (A s B : List Char) (k : Nat) (d : Disk) (hno : '/' ∉ s) :
    mkdirLoop (A ++ s ++ B) (s.length + k) A.length d
      = mkdirLoop (A ++ s ++ B) k (A.length + s.length) d := by
  induction s generalizing A with
  | nil => simp
  | cons c s ih =>
    have hc : c ≠ '/' := fun hh => hno (by simp [hh])
    have hs : '/' ∉ s := fun hh => hno (List.mem_cons_of_mem _ hh)
    have hpath : A ++ c :: s ++ B = (A ++ [c]) ++ s ++ B := by simp
    have hget : (A ++ c :: s ++ B)[A.length]? = some c := by
      rw [List.append_assoc, List.getElem?_append_right (le_refl _)]; simp
    have hne : ¬ (some c = some '/') := by simpa using hc
    have hk : (c :: s).length + k = (s.length + k) + 1 := by simp; omega
    rw [hk]
    simp only [mkdirLoop, hget, if_neg hne]
    have h2 := ih (A ++ [c]) hs
    simp only [List.length_append, List.length_singleton] at h2
    rw [hpath, h2]
    simp only [List.length_cons]
    congr 1
    omega

theorem mem_prefixesFrom_length (post : List (List Char)) (pre q : List Char)
    (h : q ∈ prefixesFrom pre post) : pre.length ≤ q.length := by
  induction post generalizing pre with
  | nil => simp [prefixesFrom] at h; subst h; exact le_refl _
  | cons s post ih =>
    simp only [prefixesFrom, List.mem_cons] at h
    rcases h with h | h
    · subst h; exact le_refl _
    · have := ih _ h
      simp at this
      omega

theorem canon_length (q : List Char) : q.length - 1 ≤ (canon q).length := by
  unfold canon
  split
  · simp
  · omega

theorem isDir_new (q : List Char) :
    ({ path := q, attrs := FILE_ATTRIBUTE_DIRECTORY } : Entry).isDir = true := by
  simp only [Entry.isDir]
  decide

theorem find_after_mkdir (d : Disk) (p q : List Char) (hne : p ≠ [])
    (hlast : p.getLast? ≠ some '/') (hpar : parentIsDir d p = true)
    (hlen : p.length + 1 < q.length) :
    (_mkdir d p).1.find q = d.find q := by
  rw [mkdir_of_parent d p hne hlast hpar]
  have hcl := canon_length q
  cases hf : d.find p with
  | none =>
    have hneq : ¬ (p = canon q) := by
      intro h
      rw [← h] at hcl
      omega
    simp [Disk.find, List.find?_append, hneq]
  | some e => simp [Disk.find]

theorem find_self_after_mkdir (d : Disk) (p : List Char) (hne : p ≠ [])
    (hlast : p.getLast? ≠ some '/') (hpar : parentIsDir d p = true)
    (hdir : ∀ e ∈ d.entries, e.path = p → e.isDir = true) :
    ∃ e, (_mkdir d p).1.find p = some e ∧ e.isDir = true := by
  rw [mkdir_of_parent d p hne hlast hpar]
  have hc : canon p = p := canon_of_no_trailing p hlast
  cases hf : d.find p with
  | none =>
    refine ⟨{ path := p, attrs := FILE_ATTRIBUTE_DIRECTORY }, ?_, isDir_new p⟩
    have hf2 : List.find? (fun e => decide (e.path = p)) d.entries = none := by
      have := hf
      simpa [Disk.find, hc] using this
    simp [Disk.find, List.find?_append, hc, hf2]
  | some e =>
    obtain ⟨hmem, hpath⟩ := find_some_spec d p e hf
    rw [hc] at hpath
    refine ⟨e, ?_, hdir e hmem hpath⟩
    simpa [Disk.find] using hf

theorem missingDirs_congr (d d2 : Disk) (ps : List (List Char))
    (h : ∀ q ∈ ps, d2.find q = d.find q) : missingDirs d2 ps = missingDirs d ps := by
  unfold missingDirs
  congr 1
  apply List.filter_congr
  intro q hq
  rw [h q hq]

/-- The scan of `mkdir_win32` from the end of the prefix `pre` on, followed by the final
`_mkdir`: every prefix is tried in turn, none of the attempts leaves the loop, and the
entries gained are the prefixes that were missing. -/
theorem mkdirLoop_chain (post : List (List Char)) :
    ∀ (pre : List Char) (d : Disk),
      (∀ s ∈ post, IsSegment s) → pre ≠ [] → pre.getLast? ≠ some '/' →
      parentIsDir d pre = true →
      (∀ e ∈ d.entries, e.path ∈ prefixesFrom pre post → e.isDir = true) →
      ((_mkdir (mkdirLoop (pre ++ joinRest post) (joinRest post).length pre.length d)
            (pre ++ joinRest post)).2 = -1 →
          (_mkdir (mkdirLoop (pre ++ joinRest post) (joinRest post).length pre.length d)
            (pre ++ joinRest post)).1.errno = EEXIST)
      ∧ (_mkdir (mkdirLoop (pre ++ joinRest post) (joinRest post).length pre.length d)
            (pre ++ joinRest post)).1.entries
          = d.entries ++ missingDirs d (prefixesFrom pre post)
      ∧ (_mkdir (mkdirLoop (pre ++ joinRest post) (joinRest post).length pre.length d)
            (pre ++ joinRest post)).1.journal = d.journal := by
  induction post with
  | nil =>
    intro pre d _ hne hlast hpar _
    have h := mkdir_of_parent_entries d pre hne hlast hpar
    simp only [joinRest, List.append_nil, List.length_nil, mkdirLoop, prefixesFrom]
    exact ⟨h.2.2, h.1, h.2.1⟩
  | cons s post ih =>
    intro pre d hseg hne hlast hpar hdirs
    obtain ⟨hs_ne, hs_no, _⟩ := hseg s (by simp)
    have hm := mkdir_of_parent_entries d pre hne hlast hpar
    -- the path, seen from the separator that follows `pre`
    have hpath1 : pre ++ joinRest (s :: post) = pre ++ '/' :: (s ++ joinRest post) := by
      simp [joinRest]
    have hpath2 : pre ++ joinRest (s :: post) = (pre ++ ['/']) ++ s ++ joinRest post := by
      simp [joinRest]
    have hpath3 : pre ++ joinRest (s :: post) = (pre ++ '/' :: s) ++ joinRest post := by
      simp [joinRest]
    have hget : (pre ++ joinRest (s :: post))[pre.length]? = some '/' := by
      rw [hpath1, List.getElem?_append_right (le_refl _)]; simp
    have htake : (pre ++ joinRest (s :: post)).take pre.length = pre := by
      simp
    have hlen : (joinRest (s :: post)).length = (s.length + (joinRest post).length) + 1 := by
      simp [joinRest]
    have hstep : mkdirLoop (pre ++ joinRest (s :: post)) (joinRest (s :: post)).length
        pre.length d
        = mkdirLoop (pre ++ joinRest (s :: post)) (s.length + (joinRest post).length)
            (pre.length + 1) (_mkdir d pre).1 := by
      rw [hlen]
      simp only [mkdirLoop, hget, htake, if_true]
      by_cases hr : (_mkdir d pre).2 = -1
      · have he : ¬ ((_mkdir d pre).1.errno ≠ EEXIST) := by
          simpa using hm.2.2 hr
        rw [if_pos hr, if_neg he]
      · rw [if_neg hr]
    have hskip := mkdirLoop_skip (pre ++ ['/']) s (joinRest post) (joinRest post).length
      (_mkdir d pre).1 hs_no
    simp only [List.length_append, List.length_singleton] at hskip
    have hlen3 : (pre ++ '/' :: s).length = pre.length + 1 + s.length := by
      simp; omega
    rw [hstep, hpath2, hskip, ← hpath2, hpath3, ← hlen3]
    -- the induction hypothesis, on the disk after the attempt at `pre`
    have hpar2 : parentIsDir (_mkdir d pre).1 (pre ++ '/' :: s) = true := by
      obtain ⟨e, he, hd⟩ := find_self_after_mkdir d pre hne hlast hpar
        (fun e hmem hp => hdirs e hmem (by rw [hp]; simp [prefixesFrom]))
      simp [parentIsDir, parentPath_append_segment pre s hs_no, he, hd]
    have hdirs2 : ∀ e ∈ (_mkdir d pre).1.entries,
        e.path ∈ prefixesFrom (pre ++ '/' :: s) post → e.isDir = true := by
      intro e hmem hp
      rw [hm.1] at hmem
      rcases List.mem_append.mp hmem with h | h
      · exact hdirs e h (by simp [prefixesFrom, hp])
      · unfold missingDirs at h
        obtain ⟨q, _, hq⟩ := List.mem_map.mp h
        rw [← hq]
        exact isDir_new q
    have hih := ih (pre ++ '/' :: s) (_mkdir d pre).1
      (fun t ht => hseg t (List.mem_cons_of_mem _ ht)) (by simp)
      (getLast?_append_segment pre s hs_ne hs_no) hpar2 hdirs2
    refine ⟨hih.1, ?_, ?_⟩
    · rw [hih.2.1, hm.1]
      have hcongr : missingDirs (_mkdir d pre).1 (prefixesFrom (pre ++ '/' :: s) post)
          = missingDirs d (prefixesFrom (pre ++ '/' :: s) post) := by
        apply missingDirs_congr
        intro q hq
        have hql := mem_prefixesFrom_length post _ q hq
        have hsl : 0 < s.length := List.length_pos.mpr hs_ne
        apply find_after_mkdir d pre q hne hlast hpar
        rw [hlen3] at hql
        omega
      rw [hcongr]
      simp [missingDirs, prefixesFrom, List.filter_cons]
      split <;> simp
    · rw [hih.2.2, hm.2.1]

theorem not_mem_joinRest_backslash (post : List (List Char)) (h : ∀ s ∈ post, IsSegment s) :
    '\\' ∉ joinRest post := by
  induction post with
  | nil => simp [joinRest]
  | cons s post ih =>
    have hs := (h s (by simp)).2.2
    have hp := ih (fun t ht => h t (List.mem_cons_of_mem _ ht))
    simp only [joinRest, List.cons_append, List.mem_cons, List.mem_append, not_or]
    exact ⟨by decide, hs, hp⟩

/-- A relative path made of segments is left as it is by `posix_path_to_win32`. -/
theorem posix_path_to_win32_joinPath (s1 : List Char) (rest : List (List Char))
    (hseg : ∀ s ∈ s1 :: rest, IsSegment s) :
    posix_path_to_win32 (joinPath s1 rest) = joinPath s1 rest := by
  obtain ⟨h1, h2, h3⟩ := hseg s1 (by simp)
  have hrest := not_mem_joinRest_backslash rest (fun t ht => hseg t (List.mem_cons_of_mem _ ht))
  have hno : '\\' ∉ joinPath s1 rest := by
    simp only [joinPath, List.mem_append, not_or]
    exact ⟨h3, hrest⟩
  rw [posix_path_to_win32_eq, map_toSlash_of_not_mem _ hno]
  cases s1 with
  | nil => exact absurd rfl h1
  | cons c t =>
    have hc1 : c ≠ '/' := fun hh => h2 (by simp [hh])
    have hc2 : c ≠ '\\' := fun hh => h3 (by simp [hh])
    simp [joinPath, hc1, hc2]

theorem mem_prefixesFrom_last (post : List (List Char)) (pre q : List Char)
    (hseg : ∀ s ∈ post, IsSegment s) (hne : pre ≠ []) (hlast : pre.getLast? ≠ some '/')
    (h : q ∈ prefixesFrom pre post) : q ≠ [] ∧ q.getLast? ≠ some '/' := by
  induction post generalizing pre with
  | nil => simp [prefixesFrom] at h; subst h; exact ⟨hne, hlast⟩
  | cons s post ih =>
    simp only [prefixesFrom, List.mem_cons] at h
    rcases h with h | h
    · subst h; exact ⟨hne, hlast⟩
    · obtain ⟨hs1, hs2, _⟩ := hseg s (by simp)
      exact ih (pre ++ '/' :: s) (fun t ht => hseg t (List.mem_cons_of_mem _ ht)) (by simp)
        (getLast?_append_segment pre s hs1 hs2) h

theorem find_of_mem (d : Disk) (p : List Char) (hlast : p.getLast? ≠ some '/')
    (hex : ∃ e ∈ d.entries, e.path = p)
    (hdir : ∀ e ∈ d.entries, e.path = p → e.isDir = true) :
    ∃ e, d.find p = some e ∧ e.isDir = true := by
  have hc : canon p = p := canon_of_no_trailing p hlast
  cases hf : d.find p with
  | none =>
    obtain ⟨e, hmem, hp⟩ := hex
    have := (find_eq_none_iff d p).mp hf e hmem
    rw [hc] at this
    exact absurd hp this
  | some e =>
    obtain ⟨hmem, hp⟩ := find_some_spec d p e hf
    rw [hc] at hp
    exact ⟨e, rfl, hdir e hmem hp⟩

theorem mem_missingDirs (d : Disk) (ps : List (List Char)) (e : Entry)
    (h : e ∈ missingDirs d ps) : e.path ∈ ps ∧ d.find e.path = none ∧ e.isDir = true := by
  unfold missingDirs at h
  obtain ⟨q, hq, he⟩ := List.mem_map.mp h
  obtain ⟨hq1, hq2⟩ := List.mem_filter.mp hq
  subst he
  refine ⟨hq1, ?_, isDir_new q⟩
  simpa using hq2

/-- The effect of one call of `mkdir_win32` on a relative path made of segments. -/
theorem mkdir_win32_core (d : Disk) (s1 : List Char) (rest : List (List Char))
    (hseg : ∀ s ∈ s1 :: rest, IsSegment s)
    (hdirs : ∀ e ∈ d.entries, e.path ∈ prefixesFrom s1 rest → e.isDir = true) :
    (mkdir_win32 d (joinPath s1 rest)).2 = 0
      ∧ (mkdir_win32 d (joinPath s1 rest)).1.entries
          = d.entries ++ missingDirs d (prefixesFrom s1 rest)
      ∧ (mkdir_win32 d (joinPath s1 rest)).1.journal = d.journal := by
  obtain ⟨h1, h2, _⟩ := hseg s1 (by simp)
  have hpar : parentIsDir d s1 = true := by simp [parentIsDir, parentPath_segment s1 h2]
  have hchain := mkdirLoop_chain rest s1 d (fun t ht => hseg t (List.mem_cons_of_mem _ ht))
    h1 (getLast?_segment s1 h2) hpar hdirs
  have hskip := mkdirLoop_skip [] s1 (joinRest rest) (joinRest rest).length d h2
  simp only [List.nil_append, List.length_nil, Nat.zero_add] at hskip
  have hlen : (s1 ++ joinRest rest).length = s1.length + (joinRest rest).length := by simp
  unfold mkdir_win32
  simp only [posix_path_to_win32_joinPath s1 rest hseg]
  simp only [joinPath, hlen, hskip]
  by_cases hr : (_mkdir (mkdirLoop (s1 ++ joinRest rest) (joinRest rest).length s1.length d)
      (s1 ++ joinRest rest)).2 = -1
  · have he := hchain.1 hr
    simp only [if_pos hr, he, ne_eq, not_true_eq_false, if_false]
    exact ⟨trivial, hchain.2.1, hchain.2.2⟩
  · simp only [if_neg hr]
    exact ⟨trivial, hchain.2.1, hchain.2.2⟩

/-- Claim C5: on a disk where the prefixes of the path that exist are directories,
`mkdir_win32` on a relative path of one or more segments joined by `/` returns `0`; the
entries afterwards are the entries before followed by one directory for each prefix (the full
path included) that was missing, so that nothing else is created or removed; every prefix and
the full path name a directory afterwards; and a second call in a row returns `0` and leaves
the entries as they are. -/
theorem mkdir_win32_creates_chain (d : Disk) (s1 : List Char) (rest : List (List Char))
    (hseg : ∀ s ∈ s1 :: rest, IsSegment s)
    (hdirs : ∀ e ∈ d.entries, e.path ∈ prefixesFrom s1 rest → e.isDir = true) :
    (mkdir_win32 d (joinPath s1 rest)).2 = 0
      ∧ (mkdir_win32 d (joinPath s1 rest)).1.entries
          = d.entries ++ missingDirs d (prefixesFrom s1 rest)
      ∧ (mkdir_win32 d (joinPath s1 rest)).1.journal = d.journal
      ∧ (∀ p ∈ prefixesFrom s1 rest,
          ∃ e, (mkdir_win32 d (joinPath s1 rest)).1.find p = some e ∧ e.isDir = true)
      ∧ (mkdir_win32 (mkdir_win32 d (joinPath s1 rest)).1 (joinPath s1 rest)).2 = 0
      ∧ (mkdir_win32 (mkdir_win32 d (joinPath s1 rest)).1 (joinPath s1 rest)).1.entries
          = (mkdir_win32 d (joinPath s1 rest)).1.entries := by
  obtain ⟨h1, h2, _⟩ := hseg s1 (by simp)
  have hcore := mkdir_win32_core d s1 rest hseg hdirs
  have hdirs2 : ∀ e ∈ (mkdir_win32 d (joinPath s1 rest)).1.entries,
      e.path ∈ prefixesFrom s1 rest → e.isDir = true := by
    intro e hmem hp
    rw [hcore.2.1] at hmem
    rcases List.mem_append.mp hmem with h | h
    · exact hdirs e h hp
    · exact (mem_missingDirs d _ e h).2.2
  have hfind : ∀ p ∈ prefixesFrom s1 rest,
      ∃ e, (mkdir_win32 d (joinPath s1 rest)).1.find p = some e ∧ e.isDir = true := by
    intro p hp
    have hpl := mem_prefixesFrom_last rest s1 p
      (fun t ht => hseg t (List.mem_cons_of_mem _ ht)) h1 (getLast?_segment s1 h2) hp
    apply find_of_mem _ p hpl.2
    · rw [hcore.2.1]
      cases hf : d.find p with
      | none =>
        refine ⟨{ path := p, attrs := FILE_ATTRIBUTE_DIRECTORY }, ?_, rfl⟩
        apply List.mem_append_right
        unfold missingDirs
        exact List.mem_map.mpr ⟨p, List.mem_filter.mpr ⟨hp, by simp [hf]⟩, rfl⟩
      | some e =>
        obtain ⟨hmem, hpath⟩ := find_some_spec d p e hf
        rw [canon_of_no_trailing p hpl.2] at hpath
        exact ⟨e, List.mem_append_left _ hmem, hpath⟩
    · intro e hmem hpath
      exact hdirs2 e hmem (by rw [hpath]; exact hp)
  have hcore2 := mkdir_win32_core (mkdir_win32 d (joinPath s1 rest)).1 s1 rest hseg hdirs2
  have hnone : missingDirs (mkdir_win32 d (joinPath s1 rest)).1 (prefixesFrom s1 rest) = [] := by
    unfold missingDirs
    rw [List.map_eq_nil_iff, List.filter_eq_nil_iff]
    intro p hp
    obtain ⟨e, he, _⟩ := hfind p hp
    simp [he]
  refine ⟨hcore.1, hcore.2.1, hcore.2.2, hfind, hcore2.1, ?_⟩
  rw [hcore2.2.1, hnone, List.append_nil]

/-- Witness for claim C5: the path `a/b/c` on a disk that already holds the directory `a`. -/
theorem mkdir_win32_creates_chain_witness :
    joinPath "a".toList ["b".toList, "c".toList] = "a/b/c".toList
      ∧ prefixesFrom "a".toList ["b".toList, "c".toList]
          = ["a".toList, "a/b".toList, "a/b/c".toList]
      ∧ (mkdir_win32 { entries := [mkEntry "a" 0x10], errno := 0, journal := [] }
            "a/b/c".toList).2 = 0
      ∧ (mkdir_win32 { entries := [mkEntry "a" 0x10], errno := 0, journal := [] }
            "a/b/c".toList).1.entries
          = [mkEntry "a" 0x10, mkEntry "a/b" 0x10, mkEntry "a/b/c" 0x10] :=
  ⟨by decide, by decide,
    (mkdir_win32_creates_chain { entries := [mkEntry "a" 0x10], errno := 0, journal := [] }
      "a".toList ["b".toList, "c".toList] (by decide) (by decide)).1,
    by decide⟩


/-! ## Properties of `open_win32` -/

/-- What the flag tests of the two-argument `open_win32` amount to: any non-zero flag asks
for write access and for `CREATE_ALWAYS`, the zero flag for neither. -/
theorem open_win32_call_of_flag (d : Disk) (path : List Char) (flag : Int)
    (hfile : GetFileAttributes d (posix_path_to_win32 path) ≠ FILE_ATTRIBUTE_DIRECTORY) :
    (flag ≠ 0 →
        (open_win32_call d path flag).dwDesiredAccess = GENERIC_READ ||| GENERIC_WRITE
          ∧ (open_win32_call d path flag).dwCreationDisposition = CREATE_ALWAYS)
      ∧ (flag = 0 →
        (open_win32_call d path flag).dwDesiredAccess = GENERIC_READ
          ∧ (open_win32_call d path flag).dwCreationDisposition = OPEN_EXISTING) := by
  have h1 : _O_RDWR ≠ 0 := by decide
  have h2 : _O_CREAT ≠ 0 := by decide
  constructor
  · intro hf
    simp [open_win32_call, hf, h1, h2, hfile]
  · intro hf
    simp [open_win32_call, hf, hfile]

/-- Claim C8 (failing input): with `flag = _O_RDWR`, in which the create bit is not set, the
file `root/foo_3` is opened with disposition `CREATE_ALWAYS`; with `flag = _O_CREAT`, in which
the read/write bit is not set, write access is requested. -/
theorem open_win32_tests_whole_flag :
    _O_RDWR.toNat &&& _O_CREAT.toNat = 0
      ∧ GetFileAttributes sampleDisk (posix_path_to_win32 "root/foo_3".toList)
          ≠ FILE_ATTRIBUTE_DIRECTORY
      ∧ (open_win32_call sampleDisk "root/foo_3".toList _O_RDWR).dwCreationDisposition
          = CREATE_ALWAYS
      ∧ (open_win32_call sampleDisk "root/foo_3".toList _O_CREAT).dwDesiredAccess
          = GENERIC_READ ||| GENERIC_WRITE := by
  decide

/-! ## Properties of the directory manager: wildcard removal -/

/-- The scenario of the specification: with the subdirectories `foo_1`, `foo_2`, `bar_1` and
the file `foo_3` under `root`, all with plain attribute words, the pattern `root/foo_*`
removes exactly `foo_1` and `foo_2`. -/
theorem rmdir_win32_sample :
    (rmdir_win32 2 sampleDisk "root/foo_*".toList).map
        (fun r => (r.1.entries, r.2, r.1.journal))
      = some ([mkEntry "root" 0x10, mkEntry "root/bar_1" 0x10, mkEntry "root/foo_3" 0x20], 0,
          ["root/foo_1".toList, "root/foo_2".toList]) := by
  decide

/-- Claim C7 (failing input): `foo_2` is an immediate entry of `root`, its attribute word
includes the directory attribute and its name starts with `foo_`; the pattern `root/foo_*`
removes `foo_1` only and leaves `foo_2` in place, because the attribute word of `foo_2` is
not equal to `FILE_ATTRIBUTE_DIRECTORY`. -/
theorem rmdir_win32_skips_directory_with_other_attributes :
    mkEntry "root/foo_2" 0x30 ∈ archiveDisk.entries
      ∧ 0x30 &&& FILE_ATTRIBUTE_DIRECTORY ≠ 0
      ∧ (mkEntry "root/foo_2" 0x30).isDir = true
      ∧ (rmdir_win32 2 archiveDisk "root/foo_*".toList).map
          (fun r => (r.1.entries, r.2, r.1.journal))
        = some ([mkEntry "root" 0x10, mkEntry "root/foo_2" 0x30, mkEntry "root/bar_1" 0x10,
            mkEntry "root/foo_3" 0x20], 0, ["root/foo_1".toList]) := by
  decide


/-! ## Properties of the directory manager: removal of a tree -/

theorem isUnder_iff (p q : List Char) : isUnder p q = true ↔ ∃ t, q = p ++ '/' :: t := by
  unfold isUnder
  rw [ List.isPrefixOf_iff_prefix]
  constructor
  · rintro ⟨t, ht⟩
    exact ⟨t, by rw [← ht]; simp⟩
  · rintro ⟨t, ht⟩
    exact ⟨t, by rw [ht]; simp⟩

theorem isUnder_length (p q : List Char) (h : isUnder p q = true) : p.length < q.length := by
  obtain ⟨t, ht⟩ := (isUnder_iff p q).mp h
  rw [ht]; simp

theorem isUnder_irrefl (p : List Char) : isUnder p p = false := by
  cases h : isUnder p p with
  | false => rfl
  | true => have := isUnder_length p p h; omega

theorem isUnder_trans (a b c : List Char) (h1 : isUnder a b = true) (h2 : isUnder b c = true) :
    isUnder a c = true := by
  obtain ⟨t, ht⟩ := (isUnder_iff a b).mp h1
  obtain ⟨u, hu⟩ := (isUnder_iff b c).mp h2
  exact (isUnder_iff a c).mpr ⟨t ++ '/' :: u, by rw [hu, ht]; simp⟩

theorem isAtOrUnder_iff (p q : List Char) :
    isAtOrUnder p q = true ↔ q = p ∨ isUnder p q = true := by
  simp [isAtOrUnder]

theorem isAtOrUnder_refl (p : List Char) : isAtOrUnder p p = true := by
  simp [isAtOrUnder]

theorem isAtOrUnder_trans (a b c : List Char) (h1 : isAtOrUnder a b = true)
    (h2 : isAtOrUnder b c = true) : isAtOrUnder a c = true := by
  rcases (isAtOrUnder_iff a b).mp h1 with h | h
  · subst h; exact h2
  · rcases (isAtOrUnder_iff b c).mp h2 with h3 | h3
    · subst h3; exact (isAtOrUnder_iff a c).mpr (Or.inr h)
    · exact (isAtOrUnder_iff a c).mpr (Or.inr (isUnder_trans a b c h h3))

theorem isUnder_of_atOrUnder (a b c : List Char) (h1 : isUnder a b = true)
    (h2 : isAtOrUnder b c = true) : isUnder a c = true := by
  rcases (isAtOrUnder_iff b c).mp h2 with h | h
  · subst h; exact h1
  · exact isUnder_trans a b c h1 h

theorem isUnder_of_atOrUnder_left (a b c : List Char) (h1 : isAtOrUnder a b = true)
    (h2 : isUnder b c = true) : isUnder a c = true := by
  rcases (isAtOrUnder_iff a b).mp h1 with h | h
  · subst h; exact h2
  · exact isUnder_trans a b c h h2

theorem isUnder_child (r n : List Char) : isUnder r (r ++ '/' :: n) = true :=
  (isUnder_iff _ _).mpr ⟨n, rfl⟩

/-- The buffer `filepath` of `rmdir_resovled` is the canonical path followed by a separator. -/
theorem filepath_eq (p : List Char) (hne : p ≠ []) :
    (if p.getLast? ≠ some '/' then p ++ ['/'] else p) = canon p ++ ['/'] := by
  unfold canon
  by_cases h : p.getLast? = some '/'
  · simp only [h, ne_eq, not_true_eq_false, if_false, if_true]
    have h2 : p.getLast hne = '/' := by
      rw [List.getLast?_eq_getLast _ hne] at h
      exact Option.some.inj h
    conv_lhs => rw [← List.dropLast_append_getLast hne]
    rw [h2]
  · simp [h]

theorem childName_eq_some (dir path n : List Char) :
    childName dir path = some n ↔ path = dir ++ '/' :: n ∧ n ≠ [] ∧ '/' ∉ n := by
  unfold childName
  by_cases hp : (dir ++ ['/']).isPrefixOf path = true
  · obtain ⟨t, ht⟩ := (isUnder_iff dir path).mp hp
    have hdrop : path.drop (dir.length + 1) = t := by
      rw [ht]
      have : dir ++ '/' :: t = (dir ++ ['/']) ++ t := by simp
      rw [this, List.drop_append_of_le_length (by simp)]
      simp
    rw [if_pos hp, hdrop]
    by_cases hc : t ≠ [] ∧ '/' ∉ t
    · rw [if_pos hc]
      constructor
      · intro h
        have : t = n := Option.some.inj h
        subst this
        exact ⟨ht, hc.1, hc.2⟩
      · rintro ⟨h1, _, _⟩
        rw [ht] at h1
        have : t = n := by simpa using h1
        rw [this]
    · rw [if_neg hc]
      constructor
      · intro h; cases h
      · rintro ⟨h1, h2, h3⟩
        rw [ht] at h1
        have : t = n := by simpa using h1
        subst this
        exact absurd ⟨h2, h3⟩ hc
  · rw [if_neg hp]
    constructor
    · intro h; cases h
    · rintro ⟨h1, _, _⟩
      exact absurd ((isUnder_iff dir path).mpr ⟨n, h1⟩) hp

theorem mem_listing (d : Disk) (p n : List Char) :
    n ∈ d.listing p ↔ (∃ e ∈ d.entries, e.path = canon p ++ '/' :: n) ∧ n ≠ [] ∧ '/' ∉ n := by
  unfold Disk.listing
  rw [List.mem_filterMap]
  constructor
  · rintro ⟨e, he, hc⟩
    obtain ⟨h1, h2, h3⟩ := (childName_eq_some _ _ _).mp hc
    exact ⟨⟨e, he, h1⟩, h2, h3⟩
  · rintro ⟨⟨e, he, h1⟩, h2, h3⟩
    exact ⟨e, he, (childName_eq_some _ _ _).mpr ⟨h1, h2, h3⟩⟩

theorem not_mem_takeWhile_sep (t : List Char) : '/' ∉ t.takeWhile (fun c => c != '/') := by
  intro h
  have := List.mem_takeWhile_imp h
  simp at this

theorem dropWhile_sep_head (t : List Char) :
    t.dropWhile (fun c => c != '/') = [] ∨ ∃ u, t.dropWhile (fun c => c != '/') = '/' :: u := by
  induction t with
  | nil => left; rfl
  | cons c t ih =>
    by_cases hc : c = '/'
    · right
      subst hc
      exact ⟨t, by simp [List.dropWhile_cons]⟩
    · have hb : (c != '/') = true := by simpa using hc
      rw [List.dropWhile_cons, hb]
      exact ih

theorem entry_unique (es : List Entry) (hnd : (es.map Entry.path).Nodup) (e1 e2 : Entry)
    (h1 : e1 ∈ es) (h2 : e2 ∈ es) (hp : e1.path = e2.path) : e1 = e2 :=
  List.inj_on_of_nodup_map hnd h1 h2 hp

/-- In a tree, an entry below `r` is an immediate entry of `r` or lies below one. -/
theorem exists_child_above (r : List Char) (es : List Entry) (ht : TreeUnder r es)
    (e : Entry) (he : e ∈ es) (hu : isUnder r e.path = true) :
    ∃ n, n ≠ [] ∧ '/' ∉ n ∧ (∃ e2 ∈ es, e2.path = r ++ '/' :: n)
      ∧ isAtOrUnder (r ++ '/' :: n) e.path = true := by
  obtain ⟨t, hpath⟩ := (isUnder_iff r e.path).mp hu
  have hsplit : t = t.takeWhile (fun c => c != '/') ++ t.dropWhile (fun c => c != '/') :=
    (List.takeWhile_append_dropWhile _ t).symm
  have hno := not_mem_takeWhile_sep t
  generalize t.takeWhile (fun c => c != '/') = n at hsplit hno
  rcases dropWhile_sep_head t with hd | ⟨u, hd⟩
  · rw [hd, List.append_nil] at hsplit
    subst hsplit
    have hne : t ≠ [] := by
      intro h0
      subst h0
      have := ht.canonical e he hu
      rw [hpath] at this
      simp at this
    exact ⟨t, hne, hno, ⟨e, he, hpath⟩, by rw [hpath]; exact isAtOrUnder_refl _⟩
  · rw [hd] at hsplit
    have hpath2 : e.path = (r ++ '/' :: n) ++ '/' :: u := by
      rw [hpath, hsplit]; simp
    obtain ⟨e2, he2, hp2, _⟩ := ht.closed e he (r ++ '/' :: n) u hpath2
      ((isAtOrUnder_iff _ _).mpr (Or.inr (isUnder_child r n)))
    have hne : n ≠ [] := by
      intro h0
      subst h0
      have := ht.canonical e2 he2 (by rw [hp2]; exact isUnder_child r [])
      rw [hp2] at this
      simp at this
    refine ⟨n, hne, hno, ⟨e2, he2, hp2⟩, ?_⟩
    rw [hpath2]
    exact (isAtOrUnder_iff _ _).mpr (Or.inr (isUnder_child _ u))

theorem TreeUnder.descend (r c : List Char) (es : List Entry) (ht : TreeUnder r es)
    (hc : isAtOrUnder r c = true) : TreeUnder c es where
  nodup := ht.nodup
  canonical := fun e he hu => ht.canonical e he (isUnder_of_atOrUnder_left r c _ hc hu)
  closed := fun e he q rest hp hq => ht.closed e he q rest hp (isAtOrUnder_trans r c q hc hq)
  noDots := ht.noDots

theorem exactDirWords_descend (r c : List Char) (es : List Entry) (h : ExactDirWords r es)
    (hc : isAtOrUnder r c = true) : ExactDirWords c es :=
  fun e he hu hd => h e he (isUnder_of_atOrUnder_left r c _ hc hu) hd

theorem fitsBuffer_descend (r c : List Char) (es : List Entry) (h : FitsBuffer r es)
    (hc : isAtOrUnder r c = true) : FitsBuffer c es :=
  fun e he hu => h e he (isUnder_of_atOrUnder_left r c _ hc hu)

theorem mem_removeTree (c : List Char) (es : List Entry) (e : Entry) :
    e ∈ removeTree c es ↔ e ∈ es ∧ isAtOrUnder c e.path = false := by
  simp [removeTree, List.mem_filter]

theorem TreeUnder.remove (r c : List Char) (es : List Entry) (ht : TreeUnder r es) :
    TreeUnder r (removeTree c es) where
  nodup := by
    have hsub : List.Sublist ((removeTree c es).map Entry.path) (es.map Entry.path) :=
      List.Sublist.map _ (List.filter_sublist _)
    exact ht.nodup.sublist hsub
  canonical := fun e he hu => ht.canonical e ((mem_removeTree c es e).mp he).1 hu
  closed := by
    intro e he q rest hp hq
    obtain ⟨hmem, hout⟩ := (mem_removeTree c es e).mp he
    obtain ⟨e2, he2, hp2, hd2⟩ := ht.closed e hmem q rest hp hq
    refine ⟨e2, (mem_removeTree c es e2).mpr ⟨he2, ?_⟩, hp2, hd2⟩
    cases hin : isAtOrUnder c e2.path with
    | false => rfl
    | true =>
      rw [hp2] at hin
      have hq2 : isUnder q e.path = true := (isUnder_iff _ _).mpr ⟨rest, hp⟩
      have := isUnder_of_atOrUnder_left c q e.path hin hq2
      have h3 : isAtOrUnder c e.path = true := (isAtOrUnder_iff _ _).mpr (Or.inr this)
      rw [h3] at hout
      cases hout
  noDots := fun e he q => ht.noDots e ((mem_removeTree c es e).mp he).1 q

theorem exactDirWords_remove (r c : List Char) (es : List Entry) (h : ExactDirWords r es) :
    ExactDirWords r (removeTree c es) :=
  fun e he hu hd => h e ((mem_removeTree c es e).mp he).1 hu hd

theorem fitsBuffer_remove (r c : List Char) (es : List Entry) (h : FitsBuffer r es) :
    FitsBuffer r (removeTree c es) :=
  fun e he hu => h e ((mem_removeTree c es e).mp he).1 hu

theorem find_of_exists (d : Disk) (p : List Char) (e : Entry) (he : e ∈ d.entries)
    (hp : e.path = canon p) (hnd : (d.entries.map Entry.path).Nodup) : d.find p = some e := by
  cases hf : d.find p with
  | none => exact absurd hp ((find_eq_none_iff d p).mp hf e he)
  | some e2 =>
    obtain ⟨hmem, hp2⟩ := find_some_spec d p e2 hf
    rw [entry_unique d.entries hnd e2 e hmem he (by rw [hp2, hp])]

theorem canon_child (r n : List Char) (hne : n ≠ []) (hno : '/' ∉ n) :
    canon (r ++ '/' :: n) = r ++ '/' :: n :=
  canon_of_no_trailing _ (getLast?_append_segment r n hne hno)

theorem nothing_under_file (r c : List Char) (es : List Entry) (ht : TreeUnder r es)
    (hc : isAtOrUnder r c = true) (e : Entry) (he : e ∈ es) (hp : e.path = c)
    (hfile : e.isDir = false) : ∀ x ∈ es, isUnder c x.path = false := by
  intro x hx
  cases hu : isUnder c x.path with
  | false => rfl
  | true =>
    obtain ⟨t, hxp⟩ := (isUnder_iff c x.path).mp hu
    obtain ⟨e2, he2, hp2, hd2⟩ := ht.closed x hx c t hxp hc
    have := entry_unique es ht.nodup e2 e he2 he (by rw [hp2, hp])
    rw [this, hfile] at hd2
    cases hd2

theorem nothing_under_absent (r c : List Char) (es : List Entry) (ht : TreeUnder r es)
    (hc : isAtOrUnder r c = true) (habs : ∀ e ∈ es, e.path ≠ c) :
    ∀ x ∈ es, isAtOrUnder c x.path = false := by
  intro x hx
  cases hu : isAtOrUnder c x.path with
  | false => rfl
  | true =>
    rcases (isAtOrUnder_iff c x.path).mp hu with h | h
    · exact absurd h (habs x hx)
    · obtain ⟨t, hxp⟩ := (isUnder_iff c x.path).mp h
      obtain ⟨e2, he2, hp2, _⟩ := ht.closed x hx c t hxp hc
      exact absurd hp2 (habs e2 he2)

/-- The loop body of `rmdir_resovled` on an entry that its test does not take for a folder:
`_unlink` deletes it when it is a file and changes no entry otherwise. -/
theorem unlink_step (r n : List Char) (d : Disk) (ht : TreeUnder r d.entries)
    (hw : ExactDirWords r d.entries) (hne : n ≠ []) (hno : '/' ∉ n)
    (hattr : GetFileAttributes d (r ++ '/' :: n) ≠ FILE_ATTRIBUTE_DIRECTORY) :
    ∃ J, (_unlink d (r ++ '/' :: n)).1.entries = removeTree (r ++ '/' :: n) d.entries
      ∧ (_unlink d (r ++ '/' :: n)).1.journal = d.journal ++ J
      ∧ PostOrder (r ++ '/' :: n) d.entries J := by
  have hcan := canon_child r n hne hno
  have hcr : isAtOrUnder r (r ++ '/' :: n) = true :=
    (isAtOrUnder_iff _ _).mpr (Or.inr (isUnder_child r n))
  cases hf : d.find (r ++ '/' :: n) with
  | none =>
    have habs : ∀ e ∈ d.entries, e.path ≠ r ++ '/' :: n := by
      have := (find_eq_none_iff d _).mp hf
      rw [hcan] at this
      exact this
    have hnone := nothing_under_absent r _ d.entries ht hcr habs
    refine ⟨[], ?_, ?_, ?_⟩
    · simp only [_unlink, hf]
      unfold removeTree
      symm
      rw [List.filter_eq_self]
      intro e he
      simp [hnone e he]
    · simp [_unlink, hf]
    · refine ⟨by simp, ?_, List.Pairwise.nil⟩
      intro e he h
      rw [hnone e he] at h
      cases h
  | some e =>
    obtain ⟨hmem, hpath⟩ := find_some_spec d _ e hf
    rw [hcan] at hpath
    have hattr2 : e.attrs ≠ FILE_ATTRIBUTE_DIRECTORY := by
      simpa [GetFileAttributes, hf] using hattr
    have hfile : e.isDir = false := by
      cases hd : e.isDir with
      | false => rfl
      | true =>
        exact absurd (hw e hmem (by rw [hpath]; exact isUnder_child r n) hd) hattr2
    have hnone := nothing_under_file r _ d.entries ht hcr e hmem hpath hfile
    refine ⟨[r ++ '/' :: n], ?_, ?_, ?_⟩
    · simp only [_unlink, hf, hfile, hcan]
      unfold removeTree
      apply List.filter_congr
      intro x hx
      simp [isAtOrUnder, hnone x hx]
    · simp [_unlink, hf, hfile, hcan]
    · refine ⟨?_, ?_, List.pairwise_singleton _ _⟩
      · intro x hx
        have : x = r ++ '/' :: n := by simpa using hx
        subst this
        exact ⟨isAtOrUnder_refl _, e, hmem, hpath⟩
      · intro x hx h
        rcases (isAtOrUnder_iff _ _).mp h with h1 | h1
        · simp [h1]
        · rw [hnone x hx] at h1
          cases h1

/-- The loop body of `rmdir_resovled` on an entry that its test takes for a folder: the
recursive call removes the subtree of the entry. -/
theorem recur_step (fuel : Nat) (hrec : RemovesTree fuel) (r n : List Char) (d : Disk)
    (ht : TreeUnder r d.entries) (hw : ExactDirWords r d.entries)
    (hfit : FitsBuffer r d.entries) (hne : n ≠ []) (hno : '/' ∉ n)
    (hbound : ∀ e ∈ d.entries, isUnder r e.path = true → e.path.length < r.length + (fuel + 1))
    (hattr : GetFileAttributes d (r ++ '/' :: n) = FILE_ATTRIBUTE_DIRECTORY) :
    ∃ d1 J, rmdir_resovled fuel d (r ++ '/' :: n) = some (d1, 0)
      ∧ d1.entries = removeTree (r ++ '/' :: n) d.entries
      ∧ d1.journal = d.journal ++ J
      ∧ PostOrder (r ++ '/' :: n) d.entries J := by
  have hcan := canon_child r n hne hno
  have hcr : isAtOrUnder r (r ++ '/' :: n) = true :=
    (isAtOrUnder_iff _ _).mpr (Or.inr (isUnder_child r n))
  cases hf : d.find (r ++ '/' :: n) with
  | none =>
    simp [GetFileAttributes, hf, INVALID_FILE_ATTRIBUTES, FILE_ATTRIBUTE_DIRECTORY] at hattr
  | some e =>
    obtain ⟨hmem, hpath⟩ := find_some_spec d _ e hf
    have hattr2 : e.attrs = FILE_ATTRIBUTE_DIRECTORY := by
      simpa [GetFileAttributes, hf] using hattr
    have hdir : e.isDir = true := by
      simp only [Entry.isDir, hattr2]
      decide
    have h := hrec d (r ++ '/' :: n) (by simp)
      (by rw [hcan]; exact ht.descend r _ d.entries hcr)
      (by rw [hcan]; exact exactDirWords_descend r _ d.entries hw hcr)
      (by rw [hcan]; exact fitsBuffer_descend r _ d.entries hfit hcr)
      ⟨e, hmem, hpath, hdir⟩
      (by
        rw [hcan]
        intro x hx hxu
        have h1 := hbound x hx (isUnder_of_atOrUnder r _ _ (isUnder_child r n) hxu)
        simp only [List.length_append, List.length_cons]
        omega)
    rw [hcan] at h
    exact h

/-- The loop of `rmdir_resovled` over the names of a directory stream: every name of the list
has its subtree removed, in the order of the list. -/
theorem killLoop_spec (fuel : Nat) (hrec : RemovesTree fuel) (r : List Char) :
    ∀ (names : List (List Char)) (d : Disk),
      (∀ n ∈ names, n ≠ [] ∧ '/' ∉ n ∧ n ≠ ['.'] ∧ n ≠ ['.', '.']
        ∧ (r ++ ['/']).length + n.length + 1 ≤ MAX_PATH) →
      TreeUnder r d.entries → ExactDirWords r d.entries → FitsBuffer r d.entries →
      (∀ e ∈ d.entries, isUnder r e.path = true → e.path.length < r.length + (fuel + 1)) →
      ∃ d2 J, killLoop (fun d1 p1 => rmdir_resovled fuel d1 p1) (r ++ ['/']) names d = some d2
        ∧ d2.entries = d.entries.filter
            (fun e => !names.any (fun n => isAtOrUnder (r ++ '/' :: n) e.path))
        ∧ d2.journal = d.journal ++ J
        ∧ (∀ x ∈ J, (∃ n ∈ names, isAtOrUnder (r ++ '/' :: n) x = true)
            ∧ ∃ e ∈ d.entries, e.path = x)
        ∧ (∀ e ∈ d.entries, (∃ n ∈ names, isAtOrUnder (r ++ '/' :: n) e.path = true) →
            e.path ∈ J)
        ∧ J.Pairwise (fun a b => isUnder a b = false) := by
  intro names
  induction names with
  | nil =>
    intro d _ _ _ _ _
    exact ⟨d, [], by simp [killLoop], by simp, by simp, by simp, by simp, List.Pairwise.nil⟩
  | cons n rest ih =>
    intro d hnames ht hw hfit hbound
    obtain ⟨hn1, hn2, hn3, hn4, hn5⟩ := hnames n (by simp)
    have hfp : (r ++ ['/']) ++ n = r ++ '/' :: n := by simp
    -- the state after the body of the loop for `n`
    have hstep : ∃ d1 J1,
        killLoop (fun d1 p1 => rmdir_resovled fuel d1 p1) (r ++ ['/']) (n :: rest) d
          = killLoop (fun d1 p1 => rmdir_resovled fuel d1 p1) (r ++ ['/']) rest d1
        ∧ d1.entries = removeTree (r ++ '/' :: n) d.entries
        ∧ d1.journal = d.journal ++ J1
        ∧ PostOrder (r ++ '/' :: n) d.entries J1 := by
      by_cases hattr : GetFileAttributes d (r ++ '/' :: n) = FILE_ATTRIBUTE_DIRECTORY
      · obtain ⟨d1, J1, h1, h2, h3, h4⟩ :=
          recur_step fuel hrec r n d ht hw hfit hn1 hn2 hbound hattr
        refine ⟨d1, J1, ?_, h2, h3, h4⟩
        simp only [killLoop, hfp, hattr, h1, if_pos hn5]
        simp [hn3, hn4]
      · obtain ⟨J1, h2, h3, h4⟩ := unlink_step r n d ht hw hn1 hn2 hattr
        refine ⟨(_unlink d (r ++ '/' :: n)).1, J1, ?_, h2, h3, h4⟩
        simp only [killLoop, hfp, hattr, if_pos hn5]
        simp [hn3, hn4]
    obtain ⟨d1, J1, hk, he1, hj1, hpo1⟩ := hstep
    have ht1 : TreeUnder r d1.entries := by rw [he1]; exact ht.remove r _ d.entries
    have hw1 : ExactDirWords r d1.entries := by rw [he1]; exact exactDirWords_remove r _ d.entries hw
    have hfit1 : FitsBuffer r d1.entries := by rw [he1]; exact fitsBuffer_remove r _ d.entries hfit
    have hbound1 : ∀ e ∈ d1.entries, isUnder r e.path = true →
        e.path.length < r.length + (fuel + 1) := by
      intro e he
      rw [he1] at he
      exact hbound e ((mem_removeTree _ _ e).mp he).1
    obtain ⟨d2, J2, hk2, he2, hj2, ha2, hb2, hc2⟩ :=
      ih d1 (fun m hm => hnames m (List.mem_cons_of_mem _ hm)) ht1 hw1 hfit1 hbound1
    refine ⟨d2, J1 ++ J2, by rw [hk, hk2], ?_, ?_, ?_, ?_, ?_⟩
    · rw [he2, he1]
      unfold removeTree
      rw [List.filter_filter]
      apply List.filter_congr
      intro e _
      simp only [List.any_cons, Bool.not_or]
      exact Bool.and_comm _ _
    · rw [hj2, hj1, List.append_assoc]
    · intro x hx
      rcases List.mem_append.mp hx with h | h
      · obtain ⟨h1, h2⟩ := hpo1.1 x h
        exact ⟨⟨n, by simp, h1⟩, h2⟩
      · obtain ⟨⟨m, hm, h1⟩, ⟨e, he, h2⟩⟩ := ha2 x h
        rw [he1] at he
        exact ⟨⟨m, List.mem_cons_of_mem _ hm, h1⟩, e, ((mem_removeTree _ _ e).mp he).1, h2⟩
    · intro e he hex
      cases hin : isAtOrUnder (r ++ '/' :: n) e.path with
      | true => exact List.mem_append_left _ (hpo1.2.1 e he hin)
      | false =>
        obtain ⟨m, hm, h1⟩ := hex
        have hm2 : m ∈ rest := by
          rcases List.mem_cons.mp hm with h | h
          · subst h
            rw [hin] at h1
            cases h1
          · exact h
        have he1' : e ∈ d1.entries := by
          rw [he1]
          exact (mem_removeTree _ _ e).mpr ⟨he, hin⟩
        exact List.mem_append_right _ (hb2 e he1' ⟨m, hm2, h1⟩)
    · rw [List.pairwise_append]
      refine ⟨hpo1.2.2, hc2, ?_⟩
      intro a ha b hb
      cases hu : isUnder a b with
      | false => rfl
      | true =>
        obtain ⟨hac, _⟩ := hpo1.1 a ha
        obtain ⟨_, ⟨e, he, hpe⟩⟩ := ha2 b hb
        rw [he1] at he
        have hout := ((mem_removeTree _ _ e).mp he).2
        have hbc := isUnder_of_atOrUnder_left _ a b hac hu
        rw [hpe, (isAtOrUnder_iff _ _).mpr (Or.inr hbc)] at hout
        cases hout

theorem not_atOrUnder_child_self (r n : List Char) : isAtOrUnder (r ++ '/' :: n) r = false := by
  cases h : isAtOrUnder (r ++ '/' :: n) r with
  | false => rfl
  | true =>
    rcases (isAtOrUnder_iff _ _).mp h with h1 | h1
    · have := congrArg List.length h1
      simp at this
    · have := isUnder_length _ _ h1
      simp at this

theorem isUnder_iff_child (r : List Char) (d : Disk) (p : List Char) (hr : canon p = r)
    (ht : TreeUnder r d.entries) (e : Entry) (he : e ∈ d.entries) :
    isUnder r e.path = (d.listing p).any (fun n => isAtOrUnder (r ++ '/' :: n) e.path) := by
  cases hu : isUnder r e.path with
  | true =>
    obtain ⟨n, h1, h2, h3, h4⟩ := exists_child_above r d.entries ht e he hu
    symm
    rw [List.any_eq_true]
    exact ⟨n, (mem_listing d p n).mpr ⟨by rw [hr]; exact h3, h1, h2⟩, h4⟩
  | false =>
    symm
    rw [List.any_eq_false]
    intro n _ h
    rw [isUnder_of_atOrUnder r _ _ (isUnder_child r n) h] at hu
    cases hu

/-- One more level of recursion: the contract of `rmdir_resovled` at bound `fuel` gives the
contract at bound `fuel + 1`. -/
theorem removesTree_succ (fuel : Nat) (hrec : RemovesTree fuel) : RemovesTree (fuel + 1) := by
  intro d p hne ht hw hfit hroot hbound
  obtain ⟨e0, he0, hp0, hd0⟩ := hroot
  have hfind : d.find p = some e0 := find_of_exists d p e0 he0 hp0 ht.nodup
  by_cases hl : d.listing p = []
  · -- the directory is empty: the first `RemoveDirectory` succeeds
    have hnone : ∀ e ∈ d.entries, isUnder (canon p) e.path = false := by
      intro e he
      rw [isUnder_iff_child (canon p) d p rfl ht e he, hl]
      rfl
    refine ⟨{ d with entries := d.entries.filter (fun x => decide (x.path ≠ canon p)),
                     journal := d.journal ++ [canon p] }, [canon p], ?_, ?_, rfl, ?_⟩
    · simp [rmdir_resovled, RemoveDirectory, hfind, hd0, hl]
    · show d.entries.filter (fun x => decide (x.path ≠ canon p)) = removeTree (canon p) d.entries
      unfold removeTree
      apply List.filter_congr
      intro x hx
      simp [isAtOrUnder, hnone x hx]
    · refine ⟨?_, ?_, List.pairwise_singleton _ _⟩
      · intro x hx
        have : x = canon p := by simpa using hx
        subst this
        exact ⟨isAtOrUnder_refl _, e0, he0, hp0⟩
      · intro x hx h
        rcases (isAtOrUnder_iff _ _).mp h with h1 | h1
        · simp [h1]
        · rw [hnone x hx] at h1
          cases h1
  · -- the directory has entries: they are removed, then `RemoveDirectory` is tried again
    have hnames : ∀ n ∈ d.listing p, n ≠ [] ∧ '/' ∉ n ∧ n ≠ ['.'] ∧ n ≠ ['.', '.']
        ∧ (canon p ++ ['/']).length + n.length + 1 ≤ MAX_PATH := by
      intro n hn
      obtain ⟨⟨e, he, hpe⟩, h1, h2⟩ := (mem_listing d p n).mp hn
      refine ⟨h1, h2, ?_, ?_, ?_⟩
      · intro h
        subst h
        exact (ht.noDots e he (canon p)).1 hpe
      · intro h
        subst h
        exact (ht.noDots e he (canon p)).2 hpe
      · have := hfit e he (by rw [hpe]; exact isUnder_child (canon p) n)
        rw [hpe] at this
        simp only [List.length_append, List.length_cons, List.length_singleton,
          List.length_nil] at this ⊢
        omega
    have hbuf : (canon p ++ ['/']).length + 1 ≤ MAX_PATH := by
      obtain ⟨n, hn⟩ := List.exists_mem_of_ne_nil _ hl
      have := (hnames n hn).2.2.2.2
      omega
    have hbound2 : ∀ e ∈ d.entries, isUnder (canon p) e.path = true →
        e.path.length < (canon p).length + (fuel + 1) :=
      fun e he hu => hbound e he ((isAtOrUnder_iff _ _).mpr (Or.inr hu))
    obtain ⟨d2, J, hk, he2, hj2, ha, hb, hc⟩ :=
      killLoop_spec fuel hrec (canon p) (d.listing p) d hnames ht hw hfit hbound2
    -- the directory itself is still there, and it is empty now
    have hkeep : ∀ e ∈ d.entries, e.path = canon p →
        (d.listing p).any (fun n => isAtOrUnder (canon p ++ '/' :: n) e.path) = false := by
      intro e _ hpe
      rw [List.any_eq_false]
      intro n _
      rw [hpe, not_atOrUnder_child_self]
      simp
    have he0' : e0 ∈ d2.entries := by
      rw [he2, List.mem_filter]
      exact ⟨he0, by simp [hkeep e0 he0 hp0]⟩
    have hnd2 : (d2.entries.map Entry.path).Nodup := by
      rw [he2]
      exact ht.nodup.sublist (List.Sublist.map _ (List.filter_sublist _))
    have hfind2 : d2.find p = some e0 := find_of_exists d2 p e0 he0' hp0 hnd2
    have hl2 : d2.listing p = [] := by
      rw [List.eq_nil_iff_forall_not_mem]
      intro n hn
      obtain ⟨⟨e, he, hpe⟩, h1, h2⟩ := (mem_listing d2 p n).mp hn
      rw [he2, List.mem_filter] at he
      have hin : n ∈ d.listing p := (mem_listing d p n).mpr ⟨⟨e, he.1, hpe⟩, h1, h2⟩
      have hany : (d.listing p).any (fun n => isAtOrUnder (canon p ++ '/' :: n) e.path) = true := by
        rw [List.any_eq_true]
        exact ⟨n, hin, by rw [hpe]; exact isAtOrUnder_refl _⟩
      simp [hany] at he
    refine ⟨{ d2 with entries := d2.entries.filter (fun x => decide (x.path ≠ canon p)),
                      journal := d2.journal ++ [canon p] }, J ++ [canon p], ?_, ?_, ?_, ?_⟩
    · have hrd : RemoveDirectory d p = (d, false, ERROR_DIR_NOT_EMPTY) := by
        simp [RemoveDirectory, hfind, hd0, hl]
      have hod : opendir d p = some (['.'] :: ['.', '.'] :: d.listing p) := by
        simp [opendir, hfind, hd0]
      have hrd2 : RemoveDirectory d2 p
          = ({ d2 with entries := d2.entries.filter (fun x => decide (x.path ≠ canon p)),
                       journal := d2.journal ++ [canon p] }, true, 0) := by
        simp [RemoveDirectory, hfind2, hd0, hl2]
      have hskip : killLoop (fun d1 p1 => rmdir_resovled fuel d1 p1) (canon p ++ ['/'])
          (['.'] :: ['.', '.'] :: d.listing p) d = some d2 := by
        rw [← hk]
        simp [killLoop]
      simp only [rmdir_resovled, hrd, hod, filepath_eq p hne, if_pos hbuf, hskip, hrd2]
      simp
    · show d2.entries.filter (fun x => decide (x.path ≠ canon p)) = removeTree (canon p) d.entries
      rw [he2]
      unfold removeTree
      rw [List.filter_filter]
      apply List.filter_congr
      intro x hx
      rw [← isUnder_iff_child (canon p) d p rfl ht x hx]
      simp [isAtOrUnder]
    · show d2.journal ++ [canon p] = d.journal ++ (J ++ [canon p])
      rw [hj2, List.append_assoc]
    · refine ⟨?_, ?_, ?_⟩
      · intro x hx
        rcases List.mem_append.mp hx with h | h
        · obtain ⟨⟨n, _, h1⟩, h2⟩ := ha x h
          exact ⟨(isAtOrUnder_iff _ _).mpr
            (Or.inr (isUnder_of_atOrUnder _ _ _ (isUnder_child (canon p) n) h1)), h2⟩
        · have : x = canon p := by simpa using h
          subst this
          exact ⟨isAtOrUnder_refl _, e0, he0, hp0⟩
      · intro x hx h
        rcases (isAtOrUnder_iff _ _).mp h with h1 | h1
        · simp [h1]
        · apply List.mem_append_left
          apply hb x hx
          have := isUnder_iff_child (canon p) d p rfl ht x hx
          rw [h1] at this
          exact List.any_eq_true.mp this.symm
      · rw [List.pairwise_append]
        refine ⟨hc, List.pairwise_singleton _ _, ?_⟩
        intro a ha1 b hb1
        have hbr : b = canon p := by simpa using hb1
        subst hbr
        cases hu : isUnder a (canon p) with
        | false => rfl
        | true =>
          obtain ⟨⟨n, _, h1⟩, _⟩ := ha a ha1
          have h2 := isUnder_of_atOrUnder _ _ _ (isUnder_child (canon p) n) h1
          have := isUnder_length _ _ hu
          have := isUnder_length _ _ h2
          omega

theorem removesTree_all (fuel : Nat) : RemovesTree fuel := by
  induction fuel with
  | zero =>
    intro d p _ _ _ _ hroot hbound
    obtain ⟨e0, he0, hp0, _⟩ := hroot
    have := hbound e0 he0 (by rw [hp0]; exact isAtOrUnder_refl _)
    rw [hp0] at this
    omega
  | succ n ih => exact removesTree_succ n ih

theorem le_maxLen (es : List Entry) (e : Entry) (he : e ∈ es) : e.path.length ≤ maxLen es := by
  induction es with
  | nil => cases he
  | cons x xs ih =>
    simp only [maxLen]
    rcases List.mem_cons.mp he with h | h
    · subst h; exact le_max_left _ _
    · exact le_trans (ih h) (le_max_right _ _)

/-- The executable test `treeCheck` is sound for `TreeUnder`. -/
theorem treeUnder_of_check (r : List Char) (es : List Entry) (h : treeCheck r es = true) :
    TreeUnder r es := by
  simp only [treeCheck, Bool.and_eq_true, List.all_eq_true, decide_eq_true_eq, Bool.or_eq_true,
    Bool.not_eq_true', Bool.and_eq_false_imp, List.any_eq_true, List.mem_range] at h
  obtain ⟨⟨⟨h1, h2⟩, h3⟩, h4⟩ := h
  refine ⟨h1, ?_, ?_, ?_⟩
  · intro e he hu
    rcases h2 e he with h | h
    · rw [hu] at h; cases h
    · exact h
  · intro e he q rest hp hq
    have hlen : q.length < e.path.length := by rw [hp]; simp
    have hget : e.path[q.length]? = some '/' := by
      rw [hp, List.getElem?_append_right (le_refl _)]; simp
    have htake : e.path.take q.length = q := by rw [hp]; simp
    rcases h3 e he q.length hlen with h | h
    · rw [htake] at h
      have := h hget
      rw [hq] at this
      cases this
    · obtain ⟨e2, he2, h6⟩ := h
      rw [htake] at h6
      exact ⟨e2, he2, h6.1, h6.2⟩
  · intro e he q
    have h := h4 e he
    constructor
    · intro hp
      have : (['/', '.'] : List Char).isSuffixOf e.path = true := by
        rw [List.isSuffixOf_iff_suffix]
        exact ⟨q, hp.symm⟩
      rw [this] at h
      simp at h
    · intro hp
      have : (['/', '.', '.'] : List Char).isSuffixOf e.path = true := by
        rw [List.isSuffixOf_iff_suffix]
        exact ⟨q, hp.symm⟩
      rw [this] at h
      simp at h

/-- Where the test on the attribute word agrees with the host and the paths fit the buffer:
on a disk whose entries at and below the directory `root` form a finite tree, whose
directories below `root` carry exactly the directory attribute and whose paths below `root`
fit `MAX_PATH` bytes, `rmdir_resovled(root)` terminates (any recursion bound above the longest
path length gives a result), returns `0`, leaves no entry at or below `root` and keeps every
entry outside of it as it was, in the same order; and its deletions are in post-order: the
journal names exactly the entries of the subtree, and no path of it lies below a path deleted
earlier, so that a directory is deleted only after everything in it. -/
theorem rmdir_resovled_removes_tree (d : Disk) (root : List Char) (fuel : Nat)
    (hne : root ≠ [])
    (htree : TreeUnder (canon root) d.entries)
    (hwords : ExactDirWords (canon root) d.entries)
    (hfit : FitsBuffer (canon root) d.entries)
    (hroot : ∃ e ∈ d.entries, e.path = canon root ∧ e.isDir = true)
    (hfuel : maxLen d.entries < fuel) :
    ∃ d2 J, rmdir_resovled fuel d root = some (d2, 0)
      ∧ d2.entries = d.entries.filter (fun e => !isAtOrUnder (canon root) e.path)
      ∧ (∀ e ∈ d2.entries, isAtOrUnder (canon root) e.path = false)
      ∧ (∀ e ∈ d.entries, isAtOrUnder (canon root) e.path = false → e ∈ d2.entries)
      ∧ d2.journal = d.journal ++ J
      ∧ (∀ x ∈ J, isAtOrUnder (canon root) x = true ∧ ∃ e ∈ d.entries, e.path = x)
      ∧ (∀ e ∈ d.entries, isAtOrUnder (canon root) e.path = true → e.path ∈ J)
      ∧ J.Pairwise (fun a b => isUnder a b = false) := by
  obtain ⟨d2, J, h1, h2, h3, h4⟩ := removesTree_all fuel d root hne htree hwords hfit hroot
    (fun e he _ => by have := le_maxLen d.entries e he; omega)
  refine ⟨d2, J, h1, h2, ?_, ?_, h3, h4.1, h4.2.1, h4.2.2⟩
  · intro e he
    rw [h2] at he
    exact ((mem_removeTree _ _ e).mp he).2
  · intro e he hout
    rw [h2]
    exact (mem_removeTree _ _ e).mpr ⟨he, hout⟩

/-- The preceding statement applied to the directory `root` of `nestedDisk`. -/
theorem rmdir_resovled_removes_tree_witness :
    TreeUnder (canon "root".toList) nestedDisk.entries
      ∧ (∃ d2 J, rmdir_resovled 11 nestedDisk "root".toList = some (d2, 0)
          ∧ d2.entries = nestedDisk.entries.filter
              (fun e => !isAtOrUnder (canon "root".toList) e.path)
          ∧ (∀ e ∈ d2.entries, isAtOrUnder (canon "root".toList) e.path = false)
          ∧ (∀ e ∈ nestedDisk.entries, isAtOrUnder (canon "root".toList) e.path = false →
              e ∈ d2.entries)
          ∧ d2.journal = nestedDisk.journal ++ J
          ∧ (∀ x ∈ J, isAtOrUnder (canon "root".toList) x = true
              ∧ ∃ e ∈ nestedDisk.entries, e.path = x)
          ∧ (∀ e ∈ nestedDisk.entries, isAtOrUnder (canon "root".toList) e.path = true →
              e.path ∈ J)
          ∧ J.Pairwise (fun a b => isUnder a b = false)) :=
  ⟨treeUnder_of_check _ _ (by decide),
    rmdir_resovled_removes_tree nestedDisk "root".toList 11 (by decide)
      (treeUnder_of_check _ _ (by decide)) (by decide) (by decide)
      ⟨mkEntry "root" 0x10, by decide, by decide, by decide⟩ (by decide)⟩

/-- The scenario of the specification, evaluated: `root` holds a file and a subdirectory with
a file of its own; the whole tree goes, deepest entries first, and `other` stays. -/
theorem rmdir_resovled_nested :
    (rmdir_resovled 3 nestedDisk "root".toList).map (fun r => (r.1.entries, r.2, r.1.journal))
      = some ([mkEntry "other" 0x10], 0,
          ["root/f".toList, "root/sub/g".toList, "root/sub".toList, "root".toList]) := by
  decide

/-- Claim C6 (failing input): `archiveDisk` holds a finite tree under the directory `root`,
with short paths; its entry `root/foo_2` is an empty directory, which the host removes on
request, and its attribute word `0x30` holds the archive bit besides the directory bit.
`rmdir_resovled(root)` hands `root/foo_2` to `_unlink`, because the attribute word is not
equal to `FILE_ATTRIBUTE_DIRECTORY`; the directory stays in place, the second
`RemoveDirectory(root)` fails, and the call returns `-1` with `root` and `root/foo_2` left. -/
theorem rmdir_resovled_archive :
    TreeUnder (canon "root".toList) archiveDisk.entries
      ∧ FitsBuffer (canon "root".toList) archiveDisk.entries
      ∧ (mkEntry "root/foo_2" 0x30 ∈ archiveDisk.entries
          ∧ (mkEntry "root/foo_2" 0x30).isDir = true
          ∧ archiveDisk.listing "root/foo_2".toList = []
          ∧ (RemoveDirectory archiveDisk "root/foo_2".toList).2.1 = true)
      ∧ (rmdir_resovled 3 archiveDisk "root".toList).map (fun r => (r.1.entries, r.2))
          = some ([mkEntry "root" 0x10, mkEntry "root/foo_2" 0x30], -1) :=
  ⟨treeUnder_of_check _ _ (by decide), by decide, by decide, by decide⟩


/-! ## Properties of the wildcard split -/

/-- The wildcard branch of `rmdir_win32` is the split followed, when the literal prefix and
the containing directory fit their buffers, by the loop over the containing directory. -/
theorem rmdir_win32_eq_split (fuel : Nat) (d : Disk) (path : List Char)
    (hne : (posix_path_to_win32 path).length ≠ 0)
    (hstar : (posix_path_to_win32 path).getLast? = some '*') :
    rmdir_win32 fuel d path =
      match rmdir_win32_split (posix_path_to_win32 path) with
      | none => none
      | some r =>
        if r.2.2 + 1 ≤ MAX_PATH ∧ r.1.length + 1 ≤ MAX_PATH then
          match opendir d r.1 with
          | some names =>
            wildLoop (fun d1 p1 => rmdir_resovled fuel d1 p1) r.1 r.2.1 r.2.2 names d 0
          | none => some (d, 0)
        else none := by
  unfold rmdir_win32 rmdir_win32_split
  simp only [hne, hstar, if_false, if_true]
  cases splitLoop (posix_path_to_win32 path) (posix_path_to_win32 path).length
      (((posix_path_to_win32 path).length : Int) - 2) with
  | none => rfl
  | some found =>
    cases found with
    | none => simp only []
    | some s => simp only []

/-- The scan of `rmdir_win32` from index `D.length + k` downwards: when the characters it
passes are no separators and a separator stands at index `D.length`, with `D` not empty, it
stops there, having read inside the string only. -/
theorem splitLoop_scan (w D : List Char) (hD : D ≠ []) (hsep : w[D.length]? = some '/') :
    ∀ (k fuel : Nat), k < fuel → D.length + k < w.length →
      (∀ j, 1 ≤ j → j ≤ k → w[D.length + j]? ≠ some '/') →
      splitLoop w fuel ((D.length + k : Nat) : Int) = some (some D.length) := by
  have hpos : 0 < D.length := List.length_pos.mpr hD
  intro k
  induction k with
  | zero =>
    intro fuel hf hlen _
    obtain ⟨f, rfl⟩ : ∃ f, fuel = f + 1 := ⟨fuel - 1, by omega⟩
    simp only [Nat.add_zero] at hlen ⊢
    have h0 : (D.length : Int) ≠ 0 := by omega
    have hin : ¬ ((D.length : Int) < 0 ∨ (w.length : Int) ≤ (D.length : Int)) := by omega
    simp only [splitLoop, if_pos h0, if_neg hin, Int.toNat_ofNat, hsep, if_true]
  | succ k ih =>
    intro fuel hf hlen hno
    obtain ⟨f, rfl⟩ : ∃ f, fuel = f + 1 := ⟨fuel - 1, by omega⟩
    have h0 : ((D.length + (k + 1) : Nat) : Int) ≠ 0 := by omega
    have hin : ¬ (((D.length + (k + 1) : Nat) : Int) < 0
        ∨ (w.length : Int) ≤ ((D.length + (k + 1) : Nat) : Int)) := by omega
    have hc : ¬ (w[D.length + (k + 1)]? = some '/') := hno (k + 1) (by omega) (le_refl _)
    have hs : ((D.length + (k + 1) : Nat) : Int) - 1 = ((D.length + k : Nat) : Int) := by
      push_cast; ring
    simp only [splitLoop, if_pos h0, if_neg hin, Int.toNat_ofNat, if_neg hc, hs]
    exact ih f (by omega) (by omega) (fun j h1 h2 => hno j h1 (by omega))

theorem takeWhile_segment (l r : List Char) (h : '/' ∉ l) :
    (l ++ '/' :: r).takeWhile (fun c => c != '/') = l := by
  induction l with
  | nil => simp [List.takeWhile]
  | cons c l ih =>
    have hc : c ≠ '/' := fun hh => h (by simp [hh])
    have hl : '/' ∉ l := fun hh => h (List.mem_cons_of_mem _ hh)
    have hb : (c != '/') = true := by simpa using hc
    rw [List.cons_append, List.takeWhile_cons, hb]
    simp [ih hl]

/-- The split on a pattern with a separator: for a normalized path `D/P*` with `D` not empty
and no separator in `P`, the scan ends inside the string, the containing directory is `D/`
and the literal prefix is `P`, which is what the specification asks. -/
theorem rmdir_win32_split_separator (D P : List Char) (hD : D ≠ []) (hP : '/' ∉ P) :
    rmdir_win32_split (D ++ '/' :: (P ++ ['*'])) = some (D ++ ['/'], P, P.length)
      ∧ expectedSplit (D ++ '/' :: (P ++ ['*'])) = (D ++ ['/'], P) := by
  constructor
  · have hlen : (D ++ '/' :: (P ++ ['*'])).length = D.length + P.length + 2 := by
      simp; omega
    have hsep : (D ++ '/' :: (P ++ ['*']))[D.length]? = some '/' := by
      rw [List.getElem?_append_right (le_refl _)]; simp
    have hno : ∀ j, 1 ≤ j → j ≤ P.length →
        (D ++ '/' :: (P ++ ['*']))[D.length + j]? ≠ some '/' := by
      intro j h1 h2
      obtain ⟨i, rfl⟩ : ∃ i, j = i + 1 := ⟨j - 1, by omega⟩
      rw [List.getElem?_append_right (by omega)]
      have hi : D.length + (i + 1) - D.length = i + 1 := by omega
      rw [hi, List.getElem?_cons_succ, List.getElem?_append_left (by omega)]
      intro hget
      exact hP (List.mem_iff_getElem?.mpr ⟨i, hget⟩)
    have hscan := splitLoop_scan (D ++ '/' :: (P ++ ['*'])) D hD hsep P.length
      (D ++ '/' :: (P ++ ['*'])).length (by rw [hlen]; omega) (by rw [hlen]; omega) hno
    have hstart : (((D ++ '/' :: (P ++ ['*'])).length : Nat) : Int) - 2
        = ((D.length + P.length : Nat) : Int) := by
      rw [hlen]; push_cast; ring
    have hw : D ++ '/' :: (P ++ ['*']) = (D ++ ['/']) ++ (P ++ ['*']) := by simp
    have htake : (D ++ '/' :: (P ++ ['*'])).take (D.length + 1) = D ++ ['/'] := by
      rw [hw]; exact List.take_left' (by simp)
    have hdrop : (D ++ '/' :: (P ++ ['*'])).drop (D.length + 1) = P ++ ['*'] := by
      rw [hw]; exact List.drop_left' (by simp)
    have hwl : (D ++ '/' :: (P ++ ['*'])).length - 1 - D.length - 1 = P.length := by
      rw [hlen]; omega
    unfold rmdir_win32_split
    rw [hstart, hscan]
    simp only [htake, hdrop, hwl]
    rw [List.take_left' rfl]
  · have hrev : (D ++ '/' :: (P ++ ['*'])).reverse = ('*' :: P.reverse) ++ '/' :: D.reverse := by
      simp
    have hno : '/' ∉ '*' :: P.reverse := by
      simp only [List.mem_cons, List.mem_reverse, not_or]
      exact ⟨by decide, hP⟩
    unfold expectedSplit
    rw [hrev, dropWhile_segment _ _ hno, takeWhile_segment _ _ hno]
    simp

/-- Claim C12 (failing inputs): on the bare pattern `*` the scan starts at index `-1` and
reads outside the path string, so neither the split nor `rmdir_win32` yields a result; on
`foo_*`, which has no separator, the scan ends without a split: the containing directory is
the whole pattern `foo_*` and the literal prefix is empty, where the specification asks for
the empty directory and the prefix `foo_`, and `rmdir_win32` removes neither `foo_1` nor
`foo_2`.  On `root/foo_*` the split is the one asked for. -/
theorem rmdir_win32_split_without_separator :
    posix_path_to_win32 "*".toList = "*".toList
      ∧ splitLoop "*".toList 1 ((1 : Int) - 2) = none
      ∧ rmdir_win32_split "*".toList = none
      ∧ (rmdir_win32 3 topLevelDisk "*".toList).isNone = true
      ∧ posix_path_to_win32 "foo_*".toList = "foo_*".toList
      ∧ rmdir_win32_split "foo_*".toList = some ("foo_*".toList, [], 0)
      ∧ expectedSplit "foo_*".toList = ([], "foo_".toList)
      ∧ (rmdir_win32 3 topLevelDisk "foo_*".toList).map (fun r => (r.1.entries, r.2))
          = some ([mkEntry "foo_1" 0x10, mkEntry "foo_2" 0x10], 0)
      ∧ rmdir_win32_split "root/foo_*".toList = some ("root/".toList, "foo_".toList, 4) := by
  decide


/-! ## Properties of `gettimeofday_win32` -/

/-- The value returned by `gettimeofday_win32` is `-1` on every call, with or without an
output record. -/
theorem gettimeofday_win32_ret (now : Int) (tickCount : Nat) (tv : Option timeval) :
    (gettimeofday_win32 now tickCount tv).2 = -1 := by
  cases tv <;> rfl

theorem toLong_of_range (z : Int) (h0 : 0 ≤ z) (h1 : z < 2 ^ 31) : toLong z = z := by
  unfold toLong
  rw [toDWORD_of_nonneg z h0 (by omega), toInt32_of_lt _ (by omega)]
  exact Int.toNat_of_nonneg h0

/-- The fields that `gettimeofday_win32` stores while nothing overflows a `long`: the seconds
field is the second count, and the microseconds field is the second count times a thousand
plus the millisecond remainder of the tick count. -/
theorem gettimeofday_win32_fields (now : Int) (tickCount : Nat) (old : timeval)
    (h0 : 0 ≤ now) (h1 : now * 1000 + 999 < 2 ^ 31) :
    (gettimeofday_win32 now tickCount (some old)).1
      = some { tv_sec := now, tv_usec := now * 1000 + ((tickCount % 1000 : Nat) : Int) } := by
  have hm : tickCount % 1000 < 1000 := Nat.mod_lt _ (by decide)
  have hs : toLong now = now := toLong_of_range now h0 (by omega)
  have hp : toLong (now * 1000) = now * 1000 := toLong_of_range _ (by omega) (by omega)
  have hd : toDWORD (now * 1000) = (now * 1000).toNat :=
    toDWORD_of_nonneg _ (by omega) (by omega)
  have hn : ((now * 1000).toNat : Int) = now * 1000 := Int.toNat_of_nonneg (by omega)
  have hlt : (now * 1000).toNat + tickCount % 1000 < 2 ^ 31 := by omega
  have hmod : ((now * 1000).toNat + tickCount % 1000) % 2 ^ 32
      = (now * 1000).toNat + tickCount % 1000 := Nat.mod_eq_of_lt (by omega)
  simp only [gettimeofday_win32, hs, hp, hd, hmod, toInt32_of_lt _ hlt]
  simp only [Nat.cast_add, hn]

/-- Claim C11 (failing input): with an output record supplied, a clock at `1700000000` seconds
and a tick count of `123456`, `gettimeofday_win32` returns `-1`, stores the second count in
the seconds field and stores `-807048760` in the microseconds field; with the clock at `1000`
seconds, where nothing overflows, the microseconds field is `1000456`.  Neither value lies in
the range from `0` up to `1000000`. -/
theorem gettimeofday_win32_returns_failure :
    gettimeofday_win32 1700000000 123456 (some { tv_sec := 0, tv_usec := 0 })
        = (some { tv_sec := 1700000000, tv_usec := -807048760 }, -1)
      ∧ gettimeofday_win32 1000 123456 (some { tv_sec := 0, tv_usec := 0 })
        = (some { tv_sec := 1000, tv_usec := 1000456 }, -1)
      ∧ gettimeofday_win32 1000 123456 none = (none, -1) := by
  decide


end Win32Posix
